import Mathlib

set_option maxHeartbeats 1000000

/-!
Shallow embedding of the ellidri IRC server core, covering the mask matcher
and mask sets of src/util.rs, the channel model of src/channel.rs and the
message and reply builders of ellidri-tokens/src/buffers.rs.

Rust strings are embedded as lists of characters; where the source does byte
arithmetic on UTF-8 data (string length, slicing) the embedding accounts for
the UTF-8 size of each character explicitly.  Fallible operations (Rust
panics) are embedded with Option, a panic being none.
-/

/-- UTF-8 byte length of a string, as Rust str::len. -/
def utf8Len (s : List Char) : Nat := (s.map Char.utf8Size).sum

/-- The first n bytes of a UTF-8 string, as the Rust byte slice s[..n].
Returns none when n does not fall on a character boundary or exceeds the
string (the Rust slice panics there). -/
def byteTake (n : Nat) (s : List Char) : Option (List Char) :=
  match s, n with
  | _, 0 => some []
  | [], _ + 1 => none
  | c :: cs, n + 1 =>
    if c.utf8Size ≤ n + 1 then (byteTake (n + 1 - c.utf8Size) cs).map (c :: ·)
    else none

/-- Rust str::parse to usize: an optional leading plus sign, then one or
more ASCII digits, and the value must fit in 64 bits; anything else is an
error (None). -/
def parseUsize (s : List Char) : Option Nat :=
  let digits := match s with | '+' :: rest => rest | _ => s
  if digits.isEmpty || !digits.all (·.isDigit) then none
  else
    let v := digits.foldl (fun a c => a * 10 + (c.toNat - 48)) 0
    if v < 2 ^ 64 then some v else none

/-- Rust str::split on a one-character separator: the list of the pieces
between occurrences of the separator.  Splitting the empty string yields one
empty piece, as in Rust. -/
def splitSep (sep : Char) : List Char → List (List Char)
  | [] => [[]]
  | c :: rest =>
    if c = sep then [] :: splitSep sep rest
    else
      match splitSep sep rest with
      | [] => [[c]]
      | p :: ps => (c :: p) :: ps

/-- Comma splitting, as used by MaskSet (util.rs). -/
def splitComma (l : List Char) : List (List Char) := splitSep ',' l

/-- Joins pieces with commas; inverse of splitComma on comma-free pieces.
Used only in proofs. -/
def joinComma : List (List Char) → List Char
  | [] => []
  | [p] => p
  | p :: ps => p ++ ',' :: joinComma ps

/-- Rust char::is_whitespace: the Unicode White_Space property (tab through
carriage return, space, next line, no-break space, ogham space mark, the
en-quad to hair-space range, the line and paragraph separators, the narrow
no-break space, the medium mathematical space, and the ideographic space). -/
def rustIsWhitespace (c : Char) : Bool :=
  let n := c.toNat
  (0x09 ≤ n && n ≤ 0x0D) || n == 0x20 || n == 0x85 || n == 0xA0 || n == 0x1680 ||
    (0x2000 ≤ n && n ≤ 0x200A) || n == 0x2028 || n == 0x2029 || n == 0x202F ||
    n == 0x205F || n == 0x3000

/-- Rust str::trim: strips Unicode whitespace from both ends. -/
def rustTrim (s : List Char) : List Char :=
  ((s.dropWhile rustIsWhitespace).reverse.dropWhile rustIsWhitespace).reverse

/-! ## Mask matcher (util.rs: match_mask, scan_chunk, match_chunk)

The source iterates over byte offsets; the embedding iterates over character
offsets, which coincides with the source on every input where the source
does not panic (the source's backtracking loop slices at arbitrary byte
offsets and panics on a non-boundary offset of a multi-byte string). -/

/-- util.rs scan_chunk: strips leading stars from the mask, then splits off
the chunk up to the next star.  Returns (star seen, chunk, rest of mask). -/
def scanChunk (mask : List Char) : Bool × List Char × List Char :=
  let m1 := mask.dropWhile (· == '*')
  (decide (m1.length < mask.length), m1.takeWhile (· != '*'), m1.dropWhile (· != '*'))

/-- util.rs match_chunk: matches the chunk against the head of s, a question
mark matching any one character.  Returns the rest of s on success (the
source returns a pair of the rest and an ok flag; the rest is only read when
ok is true). -/
def matchChunk : List Char → List Char → Option (List Char)
  | [], s => some s
  | fc :: chunk, s =>
    match s with
    | [] => none
    | fs :: s' => if fc == '?' || fc == fs then matchChunk chunk s' else none

/-- The backtracking loop of util.rs match_mask: for i in 0..s.len() over
BYTE offsets, tries match_chunk against the suffix of s starting at byte
i+1, skipping a success whose rest is non-empty when the whole mask has been
consumed.  The source slices the string at byte i+1 with no boundary check,
so the loop panics (none here) as soon as the offsets reach the interior of
a multi-byte character; a one-byte character contributes exactly the
boundary offset after it.  some none is an exhausted loop (the caller then
returns false) and some (some rest) a committed match. -/
def starLoop (chunk mask : List Char) : List Char → Option (Option (List Char))
  | [] => some none
  | c :: s' =>
    if c.utf8Size != 1 then none
    else
      match matchChunk chunk s' with
      | some rest =>
        if mask.isEmpty && !rest.isEmpty then starLoop chunk mask s' else some (some rest)
      | none => starLoop chunk mask s'

/-- util.rs match_mask, the glob matcher ported from Go's path.Match.  The
result is an Option because the star-backtracking loop slices at byte
offsets and panics (none) when an offset falls inside a multi-byte
character; some b is a normal return. -/
def matchMask (mask s : List Char) : Option Bool :=
  match mask with
  | [] => some s.isEmpty
  | c :: m =>
    let sc := scanChunk (c :: m)
    if sc.1 && sc.2.1.isEmpty then some true
    else
      match (match matchChunk sc.2.1 s with
             | some rest => if rest.isEmpty || !sc.2.2.isEmpty then some rest else none
             | none => none) with
      | some rest => matchMask sc.2.2 rest
      | none =>
        if sc.1 then
          match starLoop sc.2.1 sc.2.2 s with
          | none => none
          | some none => some false
          | some (some rest2) => matchMask sc.2.2 rest2
        else some false
termination_by mask.length
decreasing_by
  all_goals
    have key : ∀ L : List Char,
        (List.dropWhile (· != '*') (List.dropWhile (· == '*') (c :: L))).length
          < (c :: L).length := by
      intro L
      by_cases h : (c == '*') = true
      · calc (List.dropWhile (· != '*') ((c :: L).dropWhile (· == '*'))).length
            ≤ ((c :: L).dropWhile (· == '*')).length := (List.dropWhile_sublist _).length_le
          _ = (L.dropWhile (· == '*')).length := by simp [List.dropWhile_cons, h]
          _ ≤ L.length := (List.dropWhile_sublist _).length_le
          _ < (c :: L).length := by simp [Nat.lt_succ_self]
      · have hc : (c != '*') = true := by simpa [bne] using h
        calc (List.dropWhile (· != '*') ((c :: L).dropWhile (· == '*'))).length
            = (List.dropWhile (· != '*') (c :: L)).length := by
              simp [List.dropWhile_cons, h]
          _ = (List.dropWhile (· != '*') L).length := by simp [List.dropWhile_cons, hc]
          _ ≤ L.length := (List.dropWhile_sublist _).length_le
          _ < (c :: L).length := by simp [Nat.lt_succ_self]
    simpa [scanChunk] using key _

/-- Fuel-indexed evaluator for matchMask, used only to compute matchMask on
concrete inputs (the well-founded recursion of matchMask does not reduce in
the kernel).  Any fuel above the mask length gives matchMask. -/
def matchMaskE (fuel : Nat) (mask s : List Char) : Option Bool :=
  match fuel with
  | 0 => none
  | fuel + 1 =>
    match mask with
    | [] => some s.isEmpty
    | c :: m =>
      let sc := scanChunk (c :: m)
      if sc.1 && sc.2.1.isEmpty then some true
      else
        match (match matchChunk sc.2.1 s with
               | some rest => if rest.isEmpty || !sc.2.2.isEmpty then some rest else none
               | none => none) with
        | some rest => matchMaskE fuel sc.2.2 rest
        | none =>
          if sc.1 then
            match starLoop sc.2.1 sc.2.2 s with
            | none => none
            | some none => some false
            | some (some rest2) => matchMaskE fuel sc.2.2 rest2
          else some false

/-- Declarative glob grammar, written from the specification's words: a star
matches any possibly empty run of characters, a question mark matches
exactly one character, any other character matches only itself, and the
whole mask must match the whole input.  This is the specification side of
claim C8; matchMask above is the source side. -/
def globSpec : List Char → List Char → Bool
  | [], s => s.isEmpty
  | c :: m, s =>
    if c = '*' then
      globSpec m s || (match s with | [] => false | _ :: s' => globSpec (c :: m) s')
    else
      match s with
      | [] => false
      | c' :: s' => (decide (c = '?') || decide (c = c')) && globSpec m s'
termination_by mask s => (mask.length, s.length)

/-- Verdict of an optional matcher residue against a mask: a missing
residue is a failed match, a present one must itself match the mask. -/
def restGlob (m : List Char) : Option (List Char) → Bool
  | some r => globSpec m r
  | none => false

/-- Verdict of an optional matcher residue when the whole mask has been
consumed: a present residue must be empty. -/
def restNullable : Option (List Char) → Bool
  | some r => r.isEmpty
  | none => false

/-! ## MaskSet (util.rs) -/

/-- util.rs MaskSet: a set of masks stored as one comma-joined string. -/
structure MaskSet where
  raw : List Char
deriving DecidableEq

/-- MaskSet::new. -/
def MaskSet.new : MaskSet := ⟨[]⟩

/-- Iterator::any over a fallible predicate, short-circuiting on the first
panic (none) or the first true, as Rust's any does when the closure can
panic. -/
def anyM (f : List Char → Option Bool) : List (List Char) → Option Bool
  | [] => some false
  | p :: ps =>
    match f p with
    | none => none
    | some true => some true
    | some false => anyM f ps

/-- MaskSet::is_match: true iff any member mask matches s; none when the
matcher panics on the way. -/
def MaskSet.is_match (ms : MaskSet) (s : List Char) : Option Bool :=
  anyM (fun mask => matchMask mask s) (splitComma ms.raw)

/-- MaskSet::insert: returns whether the mask has been inserted, together
with the updated set. -/
def MaskSet.insert (ms : MaskSet) (mask : List Char) : Bool × MaskSet :=
  if (splitComma ms.raw).any (· == mask) then (false, ms)
  else (true, ⟨(if ms.raw.isEmpty then ms.raw else ms.raw ++ [',']) ++ mask⟩)

/-- MaskSet::remove: returns whether the mask has been removed, together
with the updated set.  The source finds the first matching piece of the
comma-split string, computes its byte range by pointer arithmetic, widens the
range by one byte when the piece is not at the very end (eating the comma
after it), and deletes the range; the embedding computes the same range in
character offsets. -/
def MaskSet.remove (ms : MaskSet) (mask : List Char) : Bool × MaskSet :=
  let ps := splitComma ms.raw
  match ps.findIdx? (· == mask) with
  | none => (false, ms)
  | some j =>
    let start := ((ps.take j).map List.length).sum + j
    let stop := start + mask.length
    let stop := if stop < ms.raw.length then stop + 1 else stop
    (true, ⟨ms.raw.take start ++ ms.raw.drop stop⟩)

/-- MaskSet::masks: the members, in storage order. -/
def MaskSet.masks (ms : MaskSet) : List (List Char) := splitComma ms.raw

/-! ## Channel model (channel.rs) -/

/-- channel.rs MemberModes: per-channel member privileges.  The source field
named protected is spelled protected_ here because protected is a Lean
keyword. -/
structure MemberModes where
  founder : Bool
  protected_ : Bool
  operator : Bool
  halfop : Bool
  voice : Bool
deriving DecidableEq

/-- Rust's derived Default for MemberModes: all flags false. -/
def MemberModes.default : MemberModes :=
  { founder := false, protected_ := false, operator := false, halfop := false, voice := false }

def MemberModes.is_at_least_op (m : MemberModes) : Bool :=
  m.operator || m.founder

def MemberModes.is_at_least_halfop (m : MemberModes) : Bool :=
  m.halfop || m.operator || m.founder

def MemberModes.has_voice (m : MemberModes) : Bool :=
  m.voice || m.halfop || m.operator || m.protected_ || m.founder

/-- ellidri-tokens mode::ChannelChange: one parsed channel mode change.  The
constructors and their arguments are exactly those matched exhaustively by
MemberModes::can_change in channel.rs. -/
inductive ChannelChange
  | InviteOnly (value : Bool)
  | Moderated (value : Bool)
  | NoPrivMsgFromOutside (value : Bool)
  | Secret (value : Bool)
  | TopicRestricted (value : Bool)
  | Key (value : Bool) (key : List Char)
  | UserLimit (limit : Option (List Char))
  | ChangeBan (value : Bool) (param : List Char)
  | ChangeException (value : Bool) (param : List Char)
  | ChangeInvitation (value : Bool) (param : List Char)
  | ChangeOperator (value : Bool) (param : List Char)
  | ChangeHalfop (value : Bool) (param : List Char)
  | ChangeVoice (value : Bool) (param : List Char)
  | GetBans
  | GetExceptions
  | GetInvitations
deriving DecidableEq

/-- channel.rs MemberModes::can_change: whether a member with these modes may
submit the given mode query (a list of parse results of channel changes). -/
def MemberModes.can_change (m : MemberModes) (modes : List (Except Unit ChannelChange)) : Bool :=
  modes.all fun mode =>
    match mode with
    | .error _ => true
    | .ok .GetBans | .ok .GetExceptions | .ok .GetInvitations => true
    | .ok (.Moderated _) | .ok (.TopicRestricted _) | .ok (.UserLimit _)
    | .ok (.ChangeBan _ _) | .ok (.ChangeException _ _) | .ok (.ChangeInvitation _ _)
    | .ok (.ChangeVoice _ _) => m.is_at_least_halfop
    | .ok (.InviteOnly _) | .ok (.NoPrivMsgFromOutside _) | .ok (.Secret _)
    | .ok (.Key _ _) | .ok (.ChangeOperator _ _) | .ok (.ChangeHalfop _ _) => m.is_at_least_op

/-- The reply numerics returned by Channel::apply_mode_change (constants of
the ellidri-tokens rpl module). -/
inductive Rpl
  | ERR_KEYSET
  | ERR_USERNOTINCHANNEL
deriving DecidableEq

deriving instance DecidableEq for Except

/-- channel.rs Topic. -/
structure Topic where
  content : List Char
  who : List Char
  time : Nat
deriving DecidableEq

/-- channel.rs Channel.  The member HashMap is embedded as an association
list whose order stands for the map's iteration order. -/
structure Channel where
  members : List (Nat × MemberModes)
  topic : Option Topic
  user_limit : Option Nat
  key : Option (List Char)
  ban_mask : MaskSet
  exception_mask : MaskSet
  invex_mask : MaskSet
  invite_only : Bool
  moderated : Bool
  no_msg_from_outside : Bool
  secret : Bool
  topic_restricted : Bool
deriving DecidableEq

/-- HashMap::insert on the association list: replaces the value under an
existing key, otherwise appends the new binding. -/
def mapInsert (l : List (Nat × MemberModes)) (id : Nat) (m : MemberModes) :
    List (Nat × MemberModes) :=
  if l.any (·.1 == id) then l.map fun p => if p.1 == id then (id, m) else p
  else l ++ [(id, m)]

/-- channel.rs Channel::add_member: grants operator to the first member,
default modes to the rest, and inserts into the member map (HashMap::insert,
which overwrites an existing binding). -/
def Channel.add_member (c : Channel) (id : Nat) : Channel :=
  let modes :=
    if c.members.isEmpty then
      { founder := false, protected_ := false, operator := true, halfop := false,
        voice := false : MemberModes }
    else MemberModes.default
  { c with members := mapInsert c.members id modes }

/-- The member-updating loop shared by the ChangeOperator, ChangeHalfop and
ChangeVoice arms of apply_mode_change: walks the members in iteration order,
and at the first member whose nick equals the parameter sets the given rank
flag, reporting whether the flag changed.  Returns none when no member
matches (the source then returns ERR_USERNOTINCHANNEL). -/
def memberLoop (nick_of : Nat → List Char) (param : List Char) (value : Bool)
    (get : MemberModes → Bool) (set : Bool → MemberModes → MemberModes) :
    List (Nat × MemberModes) → Option (Bool × List (Nat × MemberModes))
  | [] => none
  | (id, m) :: rest =>
    if nick_of id == param then some ((get m != value), (id, set value m) :: rest)
    else (memberLoop nick_of param value get set rest).map fun r => (r.1, (id, m) :: r.2)

/-- channel.rs Channel::apply_mode_change.  The state is passed explicitly:
the result pairs the Rust Result with the updated channel.  The whole result
is an Option because the Key arm slices the key string at a byte offset that
can panic (none) on multi-byte keys. -/
def Channel.apply_mode_change (c : Channel) (change : ChannelChange) (keylen : Nat)
    (nick_of : Nat → List Char) : Option (Except Rpl Bool × Channel) :=
  match change with
  | .InviteOnly v => some (.ok (c.invite_only != v), { c with invite_only := v })
  | .Moderated v => some (.ok (c.moderated != v), { c with moderated := v })
  | .NoPrivMsgFromOutside v =>
    some (.ok (c.no_msg_from_outside != v), { c with no_msg_from_outside := v })
  | .Secret v => some (.ok (c.secret != v), { c with secret := v })
  | .TopicRestricted v => some (.ok (c.topic_restricted != v), { c with topic_restricted := v })
  | .Key v k =>
    if v then
      match c.key with
      | some _ => some (.error .ERR_KEYSET, c)
      | none =>
        match byteTake (min (utf8Len k) keylen) k with
        | none => none
        | some k' => some (.ok true, { c with key := some k' })
    else
      match c.key with
      | some _ => some (.ok true, { c with key := none })
      | none => some (.ok false, c)
  | .UserLimit (some s) =>
    match parseUsize s with
    | some limit =>
      some (.ok (match c.user_limit with | none => true | some cl => cl != limit),
            { c with user_limit := some limit })
    | none => some (.ok false, c)
  | .UserLimit none => some (.ok c.user_limit.isSome, { c with user_limit := none })
  | .ChangeBan v param =>
    if v then
      let r := c.ban_mask.insert param
      some (.ok r.1, { c with ban_mask := r.2 })
    else
      let r := c.ban_mask.remove param
      some (.ok r.1, { c with ban_mask := r.2 })
  | .ChangeException v param =>
    if v then
      let r := c.exception_mask.insert param
      some (.ok r.1, { c with exception_mask := r.2 })
    else
      let r := c.exception_mask.remove param
      some (.ok r.1, { c with exception_mask := r.2 })
  | .ChangeInvitation v param =>
    if v then
      let r := c.invex_mask.insert param
      some (.ok r.1, { c with invex_mask := r.2 })
    else
      let r := c.invex_mask.remove param
      some (.ok r.1, { c with invex_mask := r.2 })
  | .ChangeOperator v param =>
    match memberLoop nick_of param v (fun m => m.operator)
        (fun b m => { m with operator := b }) c.members with
    | none => some (.error .ERR_USERNOTINCHANNEL, c)
    | some r => some (.ok r.1, { c with members := r.2 })
  | .ChangeHalfop v param =>
    match memberLoop nick_of param v (fun m => m.halfop)
        (fun b m => { m with halfop := b }) c.members with
    | none => some (.error .ERR_USERNOTINCHANNEL, c)
    | some r => some (.ok r.1, { c with members := r.2 })
  | .ChangeVoice v param =>
    match memberLoop nick_of param v (fun m => m.voice)
        (fun b m => { m with voice := b }) c.members with
    | none => some (.error .ERR_USERNOTINCHANNEL, c)
    | some r => some (.ok r.1, { c with members := r.2 })
  | .GetBans => some (.ok false, c)
  | .GetExceptions => some (.ok false, c)
  | .GetInvitations => some (.ok false, c)

/-! ## Message and reply builders (ellidri-tokens/src/buffers.rs)

Commands (the Command type of the tokens crate) are embedded by their wire
token, a list of characters; Command::Quit's token is QUIT.  The buffer of
messages is a list of characters.  The thread-local domain, nickname and
label scratch strings are passed as explicit arguments, as the specification
allows. -/

/-- MessageBuffer::with_prefix: opens a message, writing the colon-prefixed
source when the prefix is non-empty, then the command token. -/
def mkPrefixed (buf : List Char) (pfx : List Char) (command : List Char) : List Char :=
  (if pfx.isEmpty then buf else buf ++ ':' :: pfx ++ [' ']) ++ command

/-- MessageBuffer::param: trims the parameter and appends it after a space;
a parameter that trims to nothing is not appended. -/
def msgParam (buf : List Char) (param : List Char) : List Char :=
  let param := rustTrim param
  if param.isEmpty then buf else buf ++ ' ' :: param

/-- MessageBuffer::fmt_param: appends the formatted parameter after a space,
verbatim. -/
def msgFmtParam (buf : List Char) (param : List Char) : List Char :=
  buf ++ ' ' :: param

/-- MessageBuffer::trailing_param: appends a space, a colon and the verbatim
parameter. -/
def msgTrailingParam (buf : List Char) (param : List Char) : List Char :=
  buf ++ ' ' :: ':' :: param

/-- Drop for MessageBuffer: the closing carriage return and line feed
appended when the message builder goes out of scope. -/
def msgEnd (buf : List Char) : List Char := buf ++ ['\r', '\n']

/-- buffers.rs write_escaped: the tag-value escape mapping. -/
def escapeTagValue (v : List Char) : List Char :=
  v.flatMap fun c =>
    if c = ';' then ['\\', ':']
    else if c = ' ' then ['\\', 's']
    else if c = '\r' then ['\\', 'r']
    else if c = '\n' then ['\\', 'n']
    else if c = '\\' then ['\\', '\\']
    else [c]

/-- buffers.rs TagBuffer: the buffer with the position where the tag block
started (where the at sign was written). -/
structure TagBuffer where
  buf : List Char
  tag_start : Nat
deriving DecidableEq

/-- TagBuffer::new. -/
def TagBuffer.new (buf : List Char) : TagBuffer :=
  ⟨buf ++ ['@'], buf.length⟩

/-- TagBuffer::is_empty: no tag has been written yet. -/
def TagBuffer.is_empty (tb : TagBuffer) : Bool :=
  tb.buf.length == tb.tag_start + 1

/-- TagBuffer::tag: appends a key-value tag, separating it from a previous
tag with a semicolon and escaping the value. -/
def TagBuffer.tag (tb : TagBuffer) (key : List Char) (value : Option (List Char)) : TagBuffer :=
  ⟨(if tb.is_empty then tb.buf else tb.buf ++ [';']) ++ key ++
    (match value with | none => [] | some v => '=' :: escapeTagValue v), tb.tag_start⟩

/-- TagBuffer::raw_tag: appends a pre-rendered tag string. -/
def TagBuffer.raw_tag (tb : TagBuffer) (s : List Char) : TagBuffer :=
  ⟨(if tb.is_empty then tb.buf else tb.buf ++ [';']) ++ s, tb.tag_start⟩

/-- TagBuffer::prefixed_command: closes the tag block (removing the at sign
again when no tag was written, else adding the separating space) and opens
the message with prefix and command. -/
def TagBuffer.prefixed_command (tb : TagBuffer) (pfx command : List Char) : List Char :=
  mkPrefixed (if tb.is_empty then tb.buf.dropLast else tb.buf ++ [' ']) pfx command

/-- Buffer::tagged_message: forwards only the client tags (leading plus and
not plus-equals) of the incoming tag string into a fresh TagBuffer. -/
def bufferTaggedMessage (buf : List Char) (client_tags : List Char) : TagBuffer :=
  (((splitSep ';' client_tags).filter fun s =>
      s.take 1 == ['+'] && !(s.take 2 == ['+', '='])).foldl TagBuffer.raw_tag
    (TagBuffer.new buf))

/-- buffers.rs ReplyBuffer: the accumulated output, the innermost open batch
id, and whether the labeled-response label is still pending. -/
structure ReplyBuffer where
  buf : List Char
  batch : Option Nat
  has_label : Bool
deriving DecidableEq

/-- ReplyBuffer::tagged_message: starts a message, attaching the pending
label tag (consuming it) and the open batch tag. -/
def ReplyBuffer.tagged_message (label : List Char) (rb : ReplyBuffer) (tags : List Char) :
    TagBuffer × ReplyBuffer :=
  let msg := bufferTaggedMessage rb.buf tags
  let r := if rb.has_label then
      (msg.tag ['l', 'a', 'b', 'e', 'l'] (some label), { rb with has_label := false })
    else (msg, rb)
  let msg := match rb.batch with
    | some b => r.1.tag ['b', 'a', 't', 'c', 'h'] (some (Nat.repr b).data)
    | none => r.1
  (msg, r.2)

/-- ReplyBuffer::message. -/
def ReplyBuffer.message (label : List Char) (rb : ReplyBuffer) (pfx command : List Char) :
    List Char × ReplyBuffer :=
  let r := rb.tagged_message label []
  (r.1.prefixed_command pfx command, r.2)

/-- ReplyBuffer::new_batch: allocates the next batch id (a monotone counter)
and records it as the open batch. -/
def ReplyBuffer.new_batch (rb : ReplyBuffer) : Nat × ReplyBuffer :=
  let next := match rb.batch with | none => 0 | some prev => prev + 1
  (next, { rb with batch := some next })

/-- ReplyBuffer::batch_begin: allocates a batch id and emits the opening
BATCH message. -/
def ReplyBuffer.batch_begin (domain label name : List Char) (rb : ReplyBuffer) : ReplyBuffer :=
  let r := rb.new_batch
  let m := r.2.message label domain ['B', 'A', 'T', 'C', 'H']
  { m.2 with buf := msgEnd (msgParam (msgFmtParam m.1 ('+' :: (Nat.repr r.1).data)) name) }

/-- ReplyBuffer::batch_end: silently returns when no batch is open;
otherwise pops the innermost batch and emits the closing BATCH message
(tagged with the enclosing batch, if any). -/
def ReplyBuffer.batch_end (domain label : List Char) (rb : ReplyBuffer) : ReplyBuffer :=
  match rb.batch with
  | none => rb
  | some prev =>
    let rb := { rb with batch := if prev == 0 then none else some (prev - 1) }
    let m := rb.message label domain ['B', 'A', 'T', 'C', 'H']
    { m.2 with buf := msgEnd (msgFmtParam m.1 ('-' :: (Nat.repr prev).data)) }

/-- ReplyBuffer::lr_end: ends a labeled response.  Panics (none) when a
batch is still open after closing the current one; emits an ACK when the
labeled command produced no output at all. -/
def ReplyBuffer.lr_end (domain label : List Char) (rb : ReplyBuffer) : Option ReplyBuffer :=
  if !rb.has_label && rb.batch.isNone then some rb
  else
    let rb1 := if rb.batch.isSome then rb.batch_end domain label else rb
    if rb1.batch.isSome then none
    else
      let rb2 :=
        if rb1.buf.isEmpty then
          let m := rb1.message label domain ['A', 'C', 'K']
          { m.2 with buf := msgEnd m.1 }
        else rb1
      some { rb2 with has_label := false }

/-- Whether a change is a removal from one of the three mask sets (the one
family of changes whose applied flag is the remove return value). -/
def isMaskRemoval : ChannelChange → Bool
  | .ChangeBan false _ => true
  | .ChangeException false _ => true
  | .ChangeInvitation false _ => true
  | _ => false

/-- Whether a change is one of the three query forms. -/
def isQueryForm : ChannelChange → Bool
  | .GetBans => true
  | .GetExceptions => true
  | .GetInvitations => true
  | _ => false

/-- A channel with no members, no topic, no limit, no key, empty mask sets
and all flags false; the base of the concrete examples below. -/
def chanEmpty : Channel :=
  ⟨[], none, none, none, ⟨[]⟩, ⟨[]⟩, ⟨[]⟩, false, false, false, false, false⟩

/-! ## Lemmas about string splitting and joining -/

theorem splitSep_ne_nil (sep : Char) (l : List Char) : splitSep sep l ≠ [] := by
  induction l with
  | nil => simp [splitSep]
  | cons c rest ih =>
    simp only [splitSep]
    split
    · simp
    · cases h : splitSep sep rest with
      | nil => simp
      | cons p ps => simp [h]

theorem splitSep_cons_ne (sep c : Char) (rest : List Char) (hc : c ≠ sep) :
    ∀ p ps, splitSep sep rest = p :: ps → splitSep sep (c :: rest) = (c :: p) :: ps := by
  intro p ps h
  simp [splitSep, if_neg hc, h]

theorem splitSep_append (sep : Char) (a b : List Char) :
    splitSep sep (a ++ sep :: b) = splitSep sep a ++ splitSep sep b := by
  induction a with
  | nil => simp [splitSep]
  | cons c a ih =>
    by_cases hc : c = sep
    · subst hc
      simp [splitSep, ih]
    · obtain ⟨p, ps, hps⟩ : ∃ p ps, splitSep sep a = p :: ps := by
        cases h : splitSep sep a with
        | nil => exact absurd h (splitSep_ne_nil sep a)
        | cons p ps => exact ⟨p, ps, rfl⟩
      have h2 : splitSep sep (a ++ sep :: b) = p :: (ps ++ splitSep sep b) := by
        rw [ih, hps]; rfl
      rw [List.cons_append, splitSep_cons_ne sep c _ hc _ _ h2,
          splitSep_cons_ne sep c _ hc _ _ hps]
      rfl

theorem not_mem_of_mem_splitSep (sep : Char) (l : List Char) :
    ∀ p ∈ splitSep sep l, sep ∉ p := by
  induction l with
  | nil =>
    intro p hp
    simp [splitSep] at hp
    simp [hp]
  | cons c rest ih =>
    intro p hp
    by_cases hc : c = sep
    · subst hc
      simp only [splitSep, if_pos rfl] at hp
      rcases List.mem_cons.mp hp with h | h
      · simp [h]
      · exact ih p h
    · obtain ⟨q, qs, hqs⟩ : ∃ q qs, splitSep sep rest = q :: qs := by
        cases h : splitSep sep rest with
        | nil => exact absurd h (splitSep_ne_nil sep rest)
        | cons q qs => exact ⟨q, qs, rfl⟩
      rw [splitSep_cons_ne sep c rest hc q qs hqs] at hp
      rcases List.mem_cons.mp hp with h | h
      · subst h
        intro hmem
        rcases List.mem_cons.mp hmem with h2 | h2
        · exact hc h2.symm
        · exact ih q (hqs ▸ List.mem_cons_self q qs) h2
      · exact ih p (hqs ▸ List.mem_cons_of_mem q h)

theorem splitSep_of_not_mem (sep : Char) (l : List Char) (h : sep ∉ l) :
    splitSep sep l = [l] := by
  induction l with
  | nil => rfl
  | cons c rest ih =>
    have hc : c ≠ sep := by
      intro e
      exact h (e ▸ List.mem_cons_self c rest)
    have hr : sep ∉ rest := fun e => h (List.mem_cons_of_mem c e)
    rw [splitSep_cons_ne sep c rest hc rest [] (ih hr)]

theorem joinComma_splitComma (l : List Char) : joinComma (splitComma l) = l := by
  induction l with
  | nil => rfl
  | cons c rest ih =>
    obtain ⟨p, ps, hps⟩ : ∃ p ps, splitSep ',' rest = p :: ps := by
      cases h : splitSep ',' rest with
      | nil => exact absurd h (splitSep_ne_nil ',' rest)
      | cons p ps => exact ⟨p, ps, rfl⟩
    by_cases hc : c = ','
    · subst hc
      have : splitComma (',' :: rest) = [] :: p :: ps := by
        simp [splitComma, splitSep, hps]
      rw [this]
      show ',' :: joinComma (p :: ps) = ',' :: rest
      have : joinComma (p :: ps) = rest := by
        have h2 := ih
        rw [splitComma, hps] at h2
        exact h2
      rw [this]
    · have hsplit : splitComma (c :: rest) = (c :: p) :: ps :=
        splitSep_cons_ne ',' c rest hc p ps hps
      rw [hsplit]
      have h2 : joinComma (p :: ps) = rest := by
        have h3 := ih
        rw [splitComma, hps] at h3
        exact h3
      cases ps with
      | nil =>
        show c :: p = c :: rest
        have : p = rest := h2
        rw [this]
      | cons q qs =>
        show (c :: p) ++ ',' :: joinComma (q :: qs) = c :: rest
        have : p ++ ',' :: joinComma (q :: qs) = rest := h2
        rw [List.cons_append, this]

theorem joinComma_append_ne (a b : List (List Char)) (ha : a ≠ []) (hb : b ≠ []) :
    joinComma (a ++ b) = joinComma a ++ ',' :: joinComma b := by
  induction a with
  | nil => exact absurd rfl ha
  | cons p a ih =>
    cases a with
    | nil =>
      cases b with
      | nil => exact absurd rfl hb
      | cons q qs => rfl
    | cons p2 a2 =>
      have h2 := ih (by simp)
      show p ++ ',' :: joinComma ((p2 :: a2) ++ b) = (p ++ ',' :: joinComma (p2 :: a2)) ++ ',' :: joinComma b
      rw [h2]
      simp

theorem splitComma_joinComma (ps : List (List Char)) (hne : ps ≠ [])
    (hp : ∀ p ∈ ps, ',' ∉ p) : splitComma (joinComma ps) = ps := by
  induction ps with
  | nil => exact absurd rfl hne
  | cons p ps ih =>
    cases ps with
    | nil =>
      show splitComma (joinComma [p]) = [p]
      exact splitSep_of_not_mem ',' p (hp p (List.mem_cons_self p []))
    | cons q qs =>
      show splitComma (p ++ ',' :: joinComma (q :: qs)) = p :: q :: qs
      rw [splitComma, splitSep_append]
      rw [show splitSep ',' p = [p] from
        splitSep_of_not_mem ',' p (hp p (List.mem_cons_self p _))]
      have := ih (by simp) (fun r hr => hp r (List.mem_cons_of_mem p hr))
      rw [splitComma] at this
      rw [this]
      rfl

theorem joinComma_take (j : Nat) (ps : List (List Char)) (hj : j < ps.length) :
    (joinComma ps).take (((ps.take j).map List.length).sum + j) =
      joinComma (ps.take j) ++ (if j = 0 then [] else [',']) := by
  induction j generalizing ps with
  | zero => simp [joinComma]
  | succ j ih =>
    cases ps with
    | nil => exact absurd hj (by simp)
    | cons p ps =>
      obtain ⟨q, qs, rfl⟩ : ∃ q qs, ps = q :: qs := by
        cases ps with
        | nil => exact absurd hj (by simp)
        | cons q qs => exact ⟨q, qs, rfl⟩
      have hj' : j < (q :: qs).length := by
        simpa using Nat.lt_of_succ_lt_succ hj
      simp only [List.take_succ_cons, List.map_cons, List.sum_cons, if_neg (Nat.succ_ne_zero j)]
      have hJ : joinComma (p :: q :: qs) = p ++ ',' :: joinComma (q :: qs) := rfl
      rw [hJ, List.take_append_eq_append_take,
        List.take_of_length_le
          (by omega : p.length ≤ p.length + (((q :: qs).take j).map List.length).sum + (j + 1))]
      have h2 : p.length + (((q :: qs).take j).map List.length).sum + (j + 1) - p.length =
          (((q :: qs).take j).map List.length).sum + j + 1 := by omega
      rw [h2, List.take_succ_cons, ih (q :: qs) hj']
      cases j with
      | zero => simp [joinComma]
      | succ jj =>
        obtain ⟨r, rs, hrs⟩ : ∃ r rs, (q :: qs).take (jj + 1) = r :: rs :=
          ⟨q, qs.take jj, rfl⟩
        rw [hrs, if_neg (Nat.succ_ne_zero jj)]
        show p ++ ',' :: (joinComma (r :: rs) ++ [',']) =
          (p ++ ',' :: joinComma (r :: rs)) ++ [',']
        simp

theorem joinComma_drop (j : Nat) (ps : List (List Char)) (hj : j < ps.length) :
    (joinComma ps).drop (((ps.take j).map List.length).sum + j + ps[j].length) =
      (if j + 1 = ps.length then [] else ',' :: joinComma (ps.drop (j + 1))) := by
  induction j generalizing ps with
  | zero =>
    cases ps with
    | nil => exact absurd hj (by simp)
    | cons p ps =>
      cases ps with
      | nil => simp [joinComma]
      | cons q qs =>
        have hJ : joinComma (p :: q :: qs) = p ++ ',' :: joinComma (q :: qs) := rfl
        simp only [List.take_zero, List.map_nil, List.sum_nil, List.getElem_cons_zero,
          Nat.zero_add]
        rw [hJ, List.drop_left' rfl, if_neg (by simp)]
        rfl
  | succ j ih =>
    cases ps with
    | nil => exact absurd hj (by simp)
    | cons p ps =>
      obtain ⟨q, qs, rfl⟩ : ∃ q qs, ps = q :: qs := by
        cases ps with
        | nil => exact absurd hj (by simp)
        | cons q qs => exact ⟨q, qs, rfl⟩
      have hj' : j < (q :: qs).length := by
        simpa using Nat.lt_of_succ_lt_succ hj
      have hJ : joinComma (p :: q :: qs) = p ++ ',' :: joinComma (q :: qs) := rfl
      simp only [List.take_succ_cons, List.map_cons, List.sum_cons, List.getElem_cons_succ]
      rw [hJ, List.drop_append_eq_append_drop,
        List.drop_of_length_le
          (by omega : p.length ≤
            p.length + (((q :: qs).take j).map List.length).sum + (j + 1) +
              ((q :: qs)[j]).length)]
      have h2 : p.length + (((q :: qs).take j).map List.length).sum + (j + 1) +
            ((q :: qs)[j]).length - p.length =
          (((q :: qs).take j).map List.length).sum + j + ((q :: qs)[j]).length + 1 := by
        omega
      rw [h2, List.nil_append, List.drop_succ_cons, ih (q :: qs) hj']
      by_cases hlen : j + 1 = (q :: qs).length
      · rw [if_pos hlen, if_pos (by simp only [List.length_cons] at hlen ⊢; omega)]
      · rw [if_neg hlen, if_neg (by simp only [List.length_cons] at hlen ⊢; omega)]
        rfl

theorem remove_of_not_found (ms : MaskSet) (mask : List Char)
    (h : (splitComma ms.raw).findIdx? (· == mask) = none) :
    ms.remove mask = (false, ms) := by
  simp only [MaskSet.remove, h]

theorem remove_of_found (ms : MaskSet) (mask : List Char) (j : Nat)
    (hj : (splitComma ms.raw).findIdx? (· == mask) = some j) :
    ms.remove mask =
      (true,
        ⟨ms.raw.take ((((splitComma ms.raw).take j).map List.length).sum + j) ++
          ms.raw.drop
            (if (((splitComma ms.raw).take j).map List.length).sum + j + mask.length <
                ms.raw.length
             then (((splitComma ms.raw).take j).map List.length).sum + j + mask.length + 1
             else (((splitComma ms.raw).take j).map List.length).sum + j + mask.length)⟩) := by
  simp only [MaskSet.remove, hj]

theorem remove_spec (ms : MaskSet) (mask : List Char) (j : Nat)
    (hj : (splitComma ms.raw).findIdx? (· == mask) = some j) :
    (ms.remove mask).1 = true ∧
    splitComma (ms.remove mask).2.raw =
      (if j + 1 = (splitComma ms.raw).length
       then (splitComma ms.raw).take j ++ [[]]
       else (splitComma ms.raw).take j ++ (splitComma ms.raw).drop (j + 1)) := by
  obtain ⟨hlt, hpj, -⟩ := List.findIdx?_eq_some_iff_getElem.mp hj
  have hmask : (splitComma ms.raw)[j] = mask := by simpa using hpj
  have hraw : joinComma (splitComma ms.raw) = ms.raw := joinComma_splitComma ms.raw
  have hcf : ∀ p ∈ splitComma ms.raw, ',' ∉ p := not_mem_of_mem_splitSep ',' ms.raw
  have hstart := joinComma_take j (splitComma ms.raw) hlt
  rw [hraw] at hstart
  have hdrop := joinComma_drop j (splitComma ms.raw) hlt
  rw [hmask, hraw] at hdrop
  refine ⟨by rw [remove_of_found ms mask j hj], ?_⟩
  rw [remove_of_found ms mask j hj]
  by_cases hend : j + 1 = (splitComma ms.raw).length
  · have hnb : ¬((((splitComma ms.raw).take j).map List.length).sum + j + mask.length <
        ms.raw.length) := by
      intro hb
      have hd : ms.raw.drop
          ((((splitComma ms.raw).take j).map List.length).sum + j + mask.length) = [] := by
        rw [hdrop, if_pos hend]
      have := List.drop_eq_nil_iff.mp hd
      omega
    rw [if_neg hnb, if_pos hend, hstart, hdrop, if_pos hend, List.append_nil]
    cases Nat.eq_zero_or_pos j with
    | inl hz =>
      subst hz
      simp [splitComma, splitSep, joinComma]
    | inr hpos =>
      rw [if_neg (by omega)]
      have htk_ne : (splitComma ms.raw).take j ≠ [] := by
        intro e
        rcases List.take_eq_nil_iff.mp e with h0 | h0
        · omega
        · exact splitSep_ne_nil ',' ms.raw h0
      have hjoin : splitComma (joinComma ((splitComma ms.raw).take j)) =
          (splitComma ms.raw).take j :=
        splitComma_joinComma _ htk_ne
          (fun p hp => hcf p (List.mem_of_mem_take hp))
      calc splitComma (joinComma ((splitComma ms.raw).take j) ++ [','])
          = splitComma (joinComma ((splitComma ms.raw).take j) ++ ',' :: []) := rfl
        _ = splitSep ',' (joinComma ((splitComma ms.raw).take j)) ++ splitSep ',' [] :=
          splitSep_append ',' _ _
        _ = (splitComma ms.raw).take j ++ [[]] := by
          rw [show splitSep ',' (joinComma ((splitComma ms.raw).take j)) =
              splitComma (joinComma ((splitComma ms.raw).take j)) from rfl, hjoin]
          rfl
  · have hlt1 : j + 1 < (splitComma ms.raw).length := by omega
    have hb : (((splitComma ms.raw).take j).map List.length).sum + j + mask.length <
        ms.raw.length := by
      by_contra hn
      have hd : ms.raw.drop
          ((((splitComma ms.raw).take j).map List.length).sum + j + mask.length) = [] :=
        List.drop_eq_nil_of_le (by omega)
      rw [hdrop, if_neg hend] at hd
      exact List.cons_ne_nil _ _ hd
    rw [if_pos hb, if_neg hend, hstart]
    have hdrop1 :
        ms.raw.drop ((((splitComma ms.raw).take j).map List.length).sum + j + mask.length + 1) =
          joinComma ((splitComma ms.raw).drop (j + 1)) := by
      rw [show (((splitComma ms.raw).take j).map List.length).sum + j + mask.length + 1 =
          (((splitComma ms.raw).take j).map List.length).sum + j + mask.length + 1 from rfl]
      rw [← List.drop_drop]
      rw [hdrop, if_neg hend]
      rfl
    rw [hdrop1]
    have hdr_ne : (splitComma ms.raw).drop (j + 1) ≠ [] := by
      intro e
      have := List.drop_eq_nil_iff.mp e
      omega
    cases Nat.eq_zero_or_pos j with
    | inl hz =>
      subst hz
      simp only [if_pos rfl, List.nil_append, List.take_zero]
      exact splitComma_joinComma _ hdr_ne (fun p hp => hcf p (List.mem_of_mem_drop hp))
    | inr hpos =>
      rw [if_neg (by omega)]
      have htk_ne : (splitComma ms.raw).take j ≠ [] := by
        intro e
        rcases List.take_eq_nil_iff.mp e with h0 | h0
        · omega
        · exact splitSep_ne_nil ',' ms.raw h0
      calc splitComma
            ((joinComma ((splitComma ms.raw).take j) ++ [',']) ++
              joinComma ((splitComma ms.raw).drop (j + 1)))
          = splitComma
            (joinComma ((splitComma ms.raw).take j) ++
              ',' :: joinComma ((splitComma ms.raw).drop (j + 1))) := by
            rw [List.append_assoc]
            rfl
        _ = splitSep ',' (joinComma ((splitComma ms.raw).take j)) ++
              splitSep ',' (joinComma ((splitComma ms.raw).drop (j + 1))) :=
          splitSep_append ',' _ _
        _ = (splitComma ms.raw).take j ++ (splitComma ms.raw).drop (j + 1) := by
          rw [show splitSep ',' (joinComma ((splitComma ms.raw).take j)) =
              splitComma (joinComma ((splitComma ms.raw).take j)) from rfl,
            show splitSep ',' (joinComma ((splitComma ms.raw).drop (j + 1))) =
              splitComma (joinComma ((splitComma ms.raw).drop (j + 1))) from rfl,
            splitComma_joinComma _ htk_ne (fun p hp => hcf p (List.mem_of_mem_take hp)),
            splitComma_joinComma _ hdr_ne (fun p hp => hcf p (List.mem_of_mem_drop hp))]

theorem insert_of_mem (ms : MaskSet) (mask : List Char) (h : mask ∈ splitComma ms.raw) :
    ms.insert mask = (false, ms) := by
  have : (splitComma ms.raw).any (· == mask) = true := by
    simp only [List.any_eq_true]
    exact ⟨mask, h, by simp⟩
  simp [MaskSet.insert, this]

theorem insert_of_not_mem (ms : MaskSet) (mask : List Char) (h : mask ∉ splitComma ms.raw) :
    ms.insert mask =
      (true, ⟨(if ms.raw.isEmpty then ms.raw else ms.raw ++ [',']) ++ mask⟩) := by
  have : (splitComma ms.raw).any (· == mask) = false := by
    simp only [List.any_eq_false]
    intro p hp
    simp only [beq_iff_eq]
    intro e
    exact h (e ▸ hp)
  simp [MaskSet.insert, this]

theorem splitComma_insert (ms : MaskSet) (mask : List Char) (hc : ',' ∉ mask)
    (h : mask ∉ splitComma ms.raw) :
    splitComma (ms.insert mask).2.raw =
      (if ms.raw.isEmpty then [] else splitComma ms.raw) ++ [mask] := by
  rw [insert_of_not_mem ms mask h]
  by_cases he : ms.raw.isEmpty
  · have : ms.raw = [] := by
      cases hr : ms.raw with
      | nil => rfl
      | cons a b => rw [hr] at he; simp at he
    rw [if_pos he, if_pos he, this]
    show splitComma mask = [mask]
    exact splitSep_of_not_mem ',' mask hc
  · rw [if_neg he, if_neg he]
    show splitComma ((ms.raw ++ [',']) ++ mask) = splitComma ms.raw ++ [mask]
    rw [List.append_assoc]
    show splitSep ',' (ms.raw ++ ',' :: mask) = splitComma ms.raw ++ [mask]
    rw [splitSep_append]
    rw [show splitSep ',' mask = [mask] from splitSep_of_not_mem ',' mask hc]
    rfl

theorem insert_true_raw_ne (ms : MaskSet) (mask : List Char)
    (h : (ms.insert mask).1 = true) : (ms.insert mask).2.raw ≠ ms.raw := by
  have hnm : mask ∉ splitComma ms.raw := by
    intro hm
    rw [insert_of_mem ms mask hm] at h
    simp at h
  rw [insert_of_not_mem ms mask hnm]
  by_cases he : ms.raw.isEmpty
  · have hre : ms.raw = [] := by
      cases hr : ms.raw with
      | nil => rfl
      | cons a b => rw [hr] at he; simp at he
    have hmne : mask ≠ [] := by
      intro e
      apply hnm
      rw [hre, e]
      simp [splitComma, splitSep]
    rw [if_pos he, hre]
    simpa using hmne
  · rw [if_neg he]
    intro e
    have := congrArg List.length e
    simp at this

/-! ## Lemmas about byteTake -/

theorem byteTake_cons (c : Char) (cs : List Char) (n : Nat) (h : c.utf8Size ≤ n)
    (hn : 0 < n) :
    byteTake n (c :: cs) = (byteTake (n - c.utf8Size) cs).map (c :: ·) := by
  obtain ⟨m, rfl⟩ : ∃ m, n = m + 1 := ⟨n - 1, by omega⟩
  simp [byteTake, h]

theorem byteTake_full (s : List Char) : byteTake (utf8Len s) s = some s := by
  induction s with
  | nil => simp [utf8Len, byteTake]
  | cons c cs ih =>
    have h1 : utf8Len (c :: cs) = c.utf8Size + utf8Len cs := by simp [utf8Len]
    have hpos := Char.utf8Size_pos c
    rw [h1, byteTake_cons c cs _ (by omega) (by omega)]
    have h2 : c.utf8Size + utf8Len cs - c.utf8Size = utf8Len cs := by omega
    rw [h2, ih]
    rfl

theorem byteTake_some (n : Nat) (s k : List Char) (h : byteTake n s = some k) :
    k <+: s ∧ utf8Len k = n := by
  induction s generalizing n k with
  | nil =>
    match n with
    | 0 =>
      have : k = [] := by simpa [byteTake] using h.symm
      subst this
      simp [utf8Len]
    | n + 1 => simp [byteTake] at h
  | cons c cs ih =>
    match n with
    | 0 =>
      have : k = [] := by simpa [byteTake] using h.symm
      subst this
      simp [utf8Len]
    | n + 1 =>
      by_cases hsz : c.utf8Size ≤ n + 1
      · rw [byteTake_cons c cs _ hsz (by omega)] at h
        cases hbt : byteTake (n + 1 - c.utf8Size) cs with
        | none => rw [hbt] at h; simp at h
        | some k' =>
          rw [hbt] at h
          simp only [Option.map_some', Option.some.injEq] at h
          subst h
          obtain ⟨hpre, hlen⟩ := ih _ _ hbt
          constructor
          · exact List.cons_prefix_cons.mpr ⟨rfl, hpre⟩
          · have hck : utf8Len (c :: k') = c.utf8Size + utf8Len k' := by simp [utf8Len]
            rw [hck, hlen]
            omega
      · simp only [byteTake, if_neg hsz] at h
        simp at h

/-! ## Lemmas about the member map -/

theorem memberLoop_spec (nick_of : Nat → List Char) (param : List Char) (value : Bool)
    (get : MemberModes → Bool) (set : Bool → MemberModes → MemberModes)
    (hset_eq : ∀ m, set (get m) m = m)
    (hset_ne : ∀ m v, get m ≠ v → set v m ≠ m)
    (l : List (Nat × MemberModes)) (ap : Bool) (l' : List (Nat × MemberModes))
    (h : memberLoop nick_of param value get set l = some (ap, l')) :
    (ap = false → l' = l) ∧ (ap = true → l' ≠ l) := by
  induction l generalizing ap l' with
  | nil => simp [memberLoop] at h
  | cons x rest ih =>
    obtain ⟨id, m⟩ := x
    by_cases hn : (nick_of id == param) = true
    · have h2 : some ((get m != value), (id, set value m) :: rest) = some (ap, l') := by
        rw [← h]
        simp [memberLoop, hn]
      simp only [Option.some.injEq, Prod.mk.injEq] at h2
      obtain ⟨hap, hl⟩ := h2
      constructor
      · intro hf
        have hg : get m = value := by
          rw [← hap] at hf
          simpa using hf
        rw [← hl, ← hg, hset_eq m]
      · intro ht
        have hg : get m ≠ value := by
          rw [← hap] at ht
          simpa using ht
        rw [← hl]
        intro e
        have := (List.cons.injEq _ _ _ _).mp e
        have hme : set value m = m := by
          have := this.1
          exact (Prod.mk.injEq _ _ _ _).mp this |>.2
        exact hset_ne m value hg hme
    · have h2 : (memberLoop nick_of param value get set rest).map
          (fun r => (r.1, (id, m) :: r.2)) = some (ap, l') := by
        rw [← h]
        simp [memberLoop, hn]
      cases hr : memberLoop nick_of param value get set rest with
      | none => rw [hr] at h2; simp at h2
      | some r =>
        obtain ⟨r1, r2⟩ := r
        rw [hr] at h2
        simp only [Option.map_some', Option.some.injEq, Prod.mk.injEq] at h2
        obtain ⟨hap, hl⟩ := h2
        obtain ⟨ih1, ih2⟩ := ih r1 r2 hr
        constructor
        · intro hf
          rw [← hl, ih1 (hap ▸ hf)]
        · intro ht
          rw [← hl]
          intro e
          have := (List.cons.injEq _ _ _ _).mp e
          exact ih2 (hap ▸ ht) this.2

theorem lookup_map_update (l : List (Nat × MemberModes)) (id : Nat) (m : MemberModes)
    (h : l.any (·.1 == id) = true) :
    (l.map fun p => if p.1 == id then (id, m) else p).lookup id = some m := by
  induction l with
  | nil => simp at h
  | cons x rest ih =>
    obtain ⟨k, v⟩ := x
    by_cases hk : (k == id) = true
    · simp only [List.map_cons, if_pos hk]
      simp [List.lookup]
    · have h2 : rest.any (·.1 == id) = true := by
        simp only [List.any_cons] at h
        rcases Bool.or_eq_true_iff.mp h with h3 | h3
        · exact absurd h3 hk
        · exact h3
      have hke : ¬k = id := by simpa using hk
      have hik : (id == k) = false := beq_eq_false_iff_ne.mpr fun e => hke e.symm
      simp only [List.map_cons, if_neg hk]
      rw [List.lookup_cons, hik]
      exact ih h2

theorem lookup_map_update_ne (l : List (Nat × MemberModes)) (id j : Nat) (m : MemberModes)
    (h : j ≠ id) :
    (l.map fun p => if p.1 == id then (id, m) else p).lookup j = l.lookup j := by
  induction l with
  | nil => simp
  | cons x rest ih =>
    obtain ⟨k, v⟩ := x
    by_cases hk : (k == id) = true
    · have hke : k = id := by simpa using hk
      have hj1 : (j == id) = false := beq_eq_false_iff_ne.mpr h
      have hj2 : (j == k) = false := beq_eq_false_iff_ne.mpr (hke ▸ h)
      simp only [List.map_cons, if_pos hk]
      rw [List.lookup_cons, hj1, List.lookup_cons, hj2]
      exact ih
    · simp only [List.map_cons, if_neg hk]
      rw [List.lookup_cons, List.lookup_cons]
      cases hj : (j == k) with
      | true => rfl
      | false => exact ih

theorem lookup_append_self (l : List (Nat × MemberModes)) (id : Nat) (m : MemberModes)
    (h : l.any (·.1 == id) = false) :
    (l ++ [(id, m)]).lookup id = some m := by
  induction l with
  | nil => simp [List.lookup]
  | cons x rest ih =>
    obtain ⟨k, v⟩ := x
    simp only [List.any_cons, Bool.or_eq_false_iff] at h
    have hkne : ¬k = id := by simpa using h.1
    have hik : (id == k) = false := beq_eq_false_iff_ne.mpr fun e => hkne e.symm
    rw [List.cons_append, List.lookup_cons, hik]
    exact ih h.2

theorem lookup_append_ne (l : List (Nat × MemberModes)) (id j : Nat) (m : MemberModes)
    (h : j ≠ id) :
    (l ++ [(id, m)]).lookup j = l.lookup j := by
  induction l with
  | nil =>
    have hj : (j == id) = false := by simpa using h
    simp [List.lookup, hj]
  | cons x rest ih =>
    obtain ⟨k, v⟩ := x
    rw [List.cons_append, List.lookup_cons, List.lookup_cons]
    cases hj : (j == k) with
    | true => rfl
    | false => exact ih

theorem lookup_mapInsert_self (l : List (Nat × MemberModes)) (id : Nat) (m : MemberModes) :
    (mapInsert l id m).lookup id = some m := by
  unfold mapInsert
  by_cases h : l.any (·.1 == id) = true
  · rw [if_pos h]
    exact lookup_map_update l id m h
  · rw [if_neg h]
    exact lookup_append_self l id m (Bool.eq_false_iff.mpr h)

theorem lookup_mapInsert_ne (l : List (Nat × MemberModes)) (id j : Nat) (m : MemberModes)
    (h : j ≠ id) : (mapInsert l id m).lookup j = l.lookup j := by
  unfold mapInsert
  by_cases ha : l.any (·.1 == id) = true
  · rw [if_pos ha]
    exact lookup_map_update_ne l id j m h
  · rw [if_neg ha]
    exact lookup_append_ne l id j m h

theorem bool_eq_of_iff {a b : Bool} (h : a = true ↔ b = true) : a = b := by
  cases a <;> cases b <;> simp_all

theorem globSpec_nil (s : List Char) : globSpec [] s = s.isEmpty := by
  rw [globSpec]

theorem globSpec_star (m s : List Char) :
    globSpec ('*' :: m) s =
      (globSpec m s || match s with | [] => false | _ :: s' => globSpec ('*' :: m) s') := by
  conv_lhs => rw [globSpec.eq_def]
  simp

theorem globSpec_cons (c : Char) (m s : List Char) (hc : c ≠ '*') :
    globSpec (c :: m) s =
      (match s with
       | [] => false
       | c' :: s' => (decide (c = '?') || decide (c = c')) && globSpec m s') := by
  conv_lhs => rw [globSpec.eq_def]
  simp [hc]

theorem matchMask_nil (s : List Char) : matchMask [] s = some s.isEmpty := by
  rw [matchMask]

theorem matchMask_cons (c : Char) (m : List Char) (star : Bool) (chunk mrest : List Char)
    (hsc : scanChunk (c :: m) = (star, chunk, mrest)) (s : List Char) :
    matchMask (c :: m) s =
      (if star && chunk.isEmpty then some true
       else
         match (match matchChunk chunk s with
                | some rest => if rest.isEmpty || !mrest.isEmpty then some rest else none
                | none => none) with
         | some rest => matchMask mrest rest
         | none =>
           if star then
             match starLoop chunk mrest s with
             | none => none
             | some none => some false
             | some (some rest2) => matchMask mrest rest2
           else some false) := by
  conv_lhs => rw [matchMask]
  rw [hsc]

theorem tails_self_cons (l : List Char) : l.tails = l :: l.tails.tail := by
  cases l with
  | nil => rfl
  | cons c l => simp

theorem mem_tails_tail (t l : List Char) (h : t ∈ l.tails.tail) : t <:+ l :=
  (List.mem_tails _ _).mp (List.mem_of_mem_tail h)

theorem drop_suffix_of_suffix (n : Nat) (t s : List Char) (h : t <:+ s) :
    t.drop n <:+ s.drop n := by
  obtain ⟨j, hj⟩ : ∃ j, t = s.drop j := by
    obtain ⟨u, hu⟩ := h
    exact ⟨u.length, by rw [← hu, List.drop_left]⟩
  rw [hj, List.drop_drop]
  rw [show j + n = n + j from Nat.add_comm j n, ← List.drop_drop]
  exact List.drop_suffix j (s.drop n)

theorem matchChunk_eq_drop (chunk s rest : List Char) (h : matchChunk chunk s = some rest) :
    rest = s.drop chunk.length := by
  induction chunk generalizing s with
  | nil =>
    have : s = rest := by simpa [matchChunk] using h
    simp [← this]
  | cons fc chunk ih =>
    cases s with
    | nil => simp [matchChunk] at h
    | cons c' s' =>
      simp only [matchChunk] at h
      split at h
      · rw [List.length_cons, List.drop_succ_cons]
        exact ih s' h
      · simp at h

theorem globSpec_chunk_append (chunk m' s : List Char) (hc : '*' ∉ chunk) :
    globSpec (chunk ++ m') s =
      (match matchChunk chunk s with
       | some rest => globSpec m' rest
       | none => false) := by
  induction chunk generalizing s with
  | nil => simp [matchChunk]
  | cons fc chunk ih =>
    have hfc : fc ≠ '*' := fun e => hc (e ▸ List.mem_cons_self fc chunk)
    have hc' : '*' ∉ chunk := fun hm => hc (List.mem_cons_of_mem fc hm)
    rw [List.cons_append, globSpec_cons fc _ s hfc]
    cases s with
    | nil => simp [matchChunk]
    | cons c' s' =>
      show ((decide (fc = '?') || decide (fc = c')) && globSpec (chunk ++ m') s') = _
      simp only [matchChunk]
      by_cases h1 : (fc == '?' || fc == c') = true
      · have h2 : (decide (fc = '?') || decide (fc = c')) = true := by
          simpa [beq_iff_eq, decide_eq_true_iff] using h1
        rw [if_pos h1, h2, Bool.true_and, ih s' hc']
      · have h2 : (decide (fc = '?') || decide (fc = c')) = false := by
          rcases Bool.or_eq_false_iff.mp (Bool.eq_false_iff.mpr h1) with ⟨ha, hb⟩
          simp only [Bool.or_eq_false_iff, decide_eq_false_iff_not]
          constructor
          · simpa using ha
          · simpa using hb
        rw [if_neg h1, h2, Bool.false_and]

theorem globSpec_star_tails (m s : List Char) :
    globSpec ('*' :: m) s = s.tails.any (fun t => globSpec m t) := by
  induction s with
  | nil =>
    rw [globSpec_star]
    simp
  | cons c s ih =>
    rw [globSpec_star]
    simp only [List.tails_cons, List.any_cons]
    rw [ih]

theorem globSpec_star_suffix (m t s : List Char) (hsuf : t <:+ s)
    (h : globSpec ('*' :: m) t = true) : globSpec ('*' :: m) s = true := by
  rw [globSpec_star_tails] at h ⊢
  rw [List.any_eq_true] at h ⊢
  obtain ⟨u, hu, hgu⟩ := h
  exact ⟨u, (List.mem_tails _ _).mpr (List.IsSuffix.trans ((List.mem_tails _ _).mp hu) hsuf), hgu⟩

theorem globSpec_star_nil_true (s : List Char) : globSpec ['*'] s = true := by
  induction s with
  | nil =>
    rw [globSpec_star]
    simp [globSpec_nil]
  | cons c s ih =>
    rw [globSpec_star]
    simp [ih]

theorem globSpec_replicate_star (k : Nat) (m s : List Char) :
    globSpec (List.replicate (k + 1) '*' ++ m) s = globSpec ('*' :: m) s := by
  induction k generalizing s with
  | zero => simp
  | succ k ih =>
    have hsplit : List.replicate (k + 2) '*' ++ m =
        '*' :: (List.replicate (k + 1) '*' ++ m) := by
      simp [List.replicate_succ]
    apply bool_eq_of_iff
    constructor
    · intro h
      rw [hsplit, globSpec_star_tails, List.any_eq_true] at h
      obtain ⟨t, ht, hgt⟩ := h
      rw [ih] at hgt
      exact globSpec_star_suffix m t s ((List.mem_tails _ _).mp ht) hgt
    · intro h
      rw [hsplit, globSpec_star_tails, List.any_eq_true]
      refine ⟨s, (List.mem_tails _ _).mpr (List.suffix_refl s), ?_⟩
      rw [ih]
      exact h

theorem dropWhile_head_false (p : Char → Bool) (l : List Char) (d : Char) (ds : List Char)
    (h : l.dropWhile p = d :: ds) : p d = false := by
  induction l with
  | nil => simp at h
  | cons c rest ih =>
    rw [List.dropWhile_cons] at h
    by_cases hc : p c = true
    · rw [if_pos hc] at h
      exact ih h
    · rw [if_neg hc] at h
      have h2 := (List.cons.injEq _ _ _ _).mp h
      rw [← h2.1]
      exact Bool.eq_false_iff.mpr hc

theorem scanChunk_decomp (mask : List Char) :
    ∃ k, mask = List.replicate k '*' ++ (scanChunk mask).2.1 ++ (scanChunk mask).2.2 ∧
      ((scanChunk mask).1 = true ↔ k ≠ 0) ∧
      '*' ∉ (scanChunk mask).2.1 ∧
      ((scanChunk mask).2.1 = [] → (scanChunk mask).2.2 = []) ∧
      ((scanChunk mask).2.2 = [] ∨ ∃ m2, (scanChunk mask).2.2 = '*' :: m2) := by
  simp only [scanChunk]
  refine ⟨(mask.takeWhile (· == '*')).length, ?_, ?_, ?_, ?_, ?_⟩
  · have h0 : mask.takeWhile (· == '*') ++ mask.dropWhile (· == '*') = mask :=
      List.takeWhile_append_dropWhile _ _
    have h1 : mask.takeWhile (· == '*') =
        List.replicate (mask.takeWhile (· == '*')).length '*' := by
      apply List.eq_replicate_of_mem
      intro b hb
      have := List.mem_takeWhile_imp hb
      simpa using this
    have h2 : (mask.dropWhile (· == '*')).takeWhile (· != '*') ++
        (mask.dropWhile (· == '*')).dropWhile (· != '*') = mask.dropWhile (· == '*') :=
      List.takeWhile_append_dropWhile _ _
    conv_lhs => rw [← h0, h1, ← h2]
    rw [List.append_assoc]
  · have h0 : mask.takeWhile (· == '*') ++ mask.dropWhile (· == '*') = mask :=
      List.takeWhile_append_dropWhile _ _
    have hlen : (mask.takeWhile (· == '*')).length + (mask.dropWhile (· == '*')).length =
        mask.length := by
      have h3 := congrArg List.length h0
      rw [List.length_append] at h3
      exact h3
    simp only [decide_eq_true_iff]
    omega
  · intro hmem
    have := List.mem_takeWhile_imp hmem
    simp at this
  · intro hch
    cases hm1 : mask.dropWhile (· == '*') with
    | nil => simp [hm1]
    | cons d ds =>
      have hd : (d == '*') = false := by
        have := dropWhile_head_false (· == '*') mask d ds hm1
        simpa using this
      have hd2 : (d != '*') = true := by
        simp [bne, hd]
      rw [hm1, List.takeWhile_cons, if_pos hd2] at hch
      simp at hch
  · cases hmr : (mask.dropWhile (· == '*')).dropWhile (· != '*') with
    | nil => exact Or.inl rfl
    | cons d ds =>
      refine Or.inr ⟨ds, ?_⟩
      have hd : (d != '*') = false := by
        have := dropWhile_head_false (· != '*') (mask.dropWhile (· == '*')) d ds hmr
        simpa using this
      have hde : d = '*' := by
        simpa [bne] using hd
      rw [hde]

theorem restGlob_nil (x : Option (List Char)) : restGlob [] x = restNullable x := by
  cases x with
  | none => rfl
  | some r => simp only [restGlob, restNullable, globSpec_nil]

theorem starLoop_empty_sound (chunk s : List Char) (res : Option (List Char))
    (h : starLoop chunk [] s = some res) :
    restNullable res = s.tails.tail.any (fun t => restNullable (matchChunk chunk t)) := by
  induction s generalizing res with
  | nil =>
    have hres : res = none := by simpa [starLoop] using h.symm
    subst hres
    simp [restNullable]
  | cons c s' ih =>
    simp only [starLoop] at h
    rw [show (c :: s').tails.tail = s'.tails from by simp]
    rw [tails_self_cons s', List.any_cons]
    by_cases hc : (c.utf8Size != 1) = true
    · rw [if_pos hc] at h
      simp at h
    · rw [if_neg hc] at h
      cases hmc : matchChunk chunk s' with
      | some rest =>
        rw [hmc] at h
        cases rest with
        | nil =>
          have hres : res = some [] := by simpa using h.symm
          subst hres
          simp [restNullable, hmc]
        | cons r rs =>
          have h2 : starLoop chunk [] s' = some res := by simpa using h
          rw [ih res h2]
          simp [restNullable, hmc]
      | none =>
        rw [hmc] at h
        rw [ih res h]
        simp [restNullable, hmc]

theorem starLoop_star_sound (chunk R s : List Char) (res : Option (List Char))
    (h : starLoop chunk ('*' :: R) s = some res) :
    restGlob ('*' :: R) res =
      s.tails.tail.any (fun t => restGlob ('*' :: R) (matchChunk chunk t)) := by
  induction s generalizing res with
  | nil =>
    have hres : res = none := by simpa [starLoop] using h.symm
    subst hres
    simp [restGlob]
  | cons c s' ih =>
    simp only [starLoop] at h
    rw [show (c :: s').tails.tail = s'.tails from by simp]
    rw [tails_self_cons s', List.any_cons]
    by_cases hc : (c.utf8Size != 1) = true
    · rw [if_pos hc] at h
      simp at h
    · rw [if_neg hc] at h
      cases hmc : matchChunk chunk s' with
      | some rest =>
        rw [hmc] at h
        have hres : res = some rest := by simpa using h.symm
        subst hres
        simp only [restGlob]
        -- Goal: globSpec ('*'::R) rest = (globSpec ('*'::R) rest || s'.tails.tail.any B)
        apply bool_eq_of_iff
        constructor
        · intro h
          rw [h]
          rfl
        · intro h
          rcases Bool.or_eq_true_iff.mp h with h1 | h1
          · exact h1
          · rw [List.any_eq_true] at h1
            obtain ⟨t, ht, hbt⟩ := h1
            have hsuf : t <:+ s' := mem_tails_tail t s' ht
            cases hmt : matchChunk chunk t with
            | none => rw [hmt] at hbt; simp [restGlob] at hbt
            | some rt =>
              rw [hmt] at hbt
              simp only [restGlob] at hbt
              have hrt : rt = t.drop chunk.length := matchChunk_eq_drop chunk t rt hmt
              have hrest : rest = s'.drop chunk.length := matchChunk_eq_drop chunk s' rest hmc
              have hsuf2 : rt <:+ rest := by
                rw [hrt, hrest]
                exact drop_suffix_of_suffix chunk.length t s' hsuf
              exact globSpec_star_suffix R rt rest hsuf2 hbt
      | none =>
        rw [hmc] at h
        rw [ih res h]
        simp [restGlob, hmc]

theorem matchChunk_beq_isEmpty (chunk t : List Char) :
    (matchChunk chunk t == some []) =
      (match matchChunk chunk t with
       | some r => r.isEmpty
       | none => false) := by
  cases hmc : matchChunk chunk t with
  | none => simp
  | some r => cases r <;> simp

theorem matchMask_sound (mask s : List Char) (b : Bool) (hmm : matchMask mask s = some b) :
    b = globSpec mask s := by
  suffices H : ∀ (n : Nat) (mask s : List Char) (b : Bool), mask.length ≤ n →
      matchMask mask s = some b → b = globSpec mask s by
    exact H mask.length mask s b (Nat.le_refl _) hmm
  intro n
  induction n with
  | zero =>
    intro mask s b hlen hm2
    have hm : mask = [] := List.eq_nil_of_length_eq_zero (Nat.le_zero.mp hlen)
    subst hm
    rw [matchMask_nil] at hm2
    rw [globSpec_nil]
    simpa using hm2.symm
  | succ n ih =>
    intro mask s b hlen hm2
    cases mask with
    | nil =>
      rw [matchMask_nil] at hm2
      rw [globSpec_nil]
      simpa using hm2.symm
    | cons c m =>
      rcases hsc : scanChunk (c :: m) with ⟨star, chunk, mrest⟩
      obtain ⟨k, hdecomp, hstar_iff, hnostar, hch_mr, hmr_shape⟩ := scanChunk_decomp (c :: m)
      rw [hsc] at hdecomp hstar_iff hnostar hch_mr hmr_shape
      dsimp only at hdecomp hstar_iff hnostar hch_mr hmr_shape
      rw [matchMask_cons c m star chunk mrest hsc s] at hm2
      by_cases hguard : (star && chunk.isEmpty) = true
      · rw [if_pos hguard] at hm2
        have hb : b = true := by simpa using hm2.symm
        subst hb
        obtain ⟨hstar, hchunk_e⟩ := Bool.and_eq_true_iff.mp hguard
        have hchunk : chunk = [] := by simpa using hchunk_e
        have hmrest : mrest = [] := hch_mr hchunk
        have hk : k ≠ 0 := hstar_iff.mp hstar
        obtain ⟨k', rfl⟩ : ∃ k', k = k' + 1 := ⟨k - 1, by omega⟩
        rw [hchunk, hmrest] at hdecomp
        simp only [List.append_nil] at hdecomp
        rw [hdecomp]
        rw [show List.replicate (k' + 1) '*' = List.replicate (k' + 1) '*' ++ ([] : List Char)
          from by simp]
        rw [globSpec_replicate_star k' [] s]
        exact (globSpec_star_nil_true s).symm
      · rw [if_neg hguard] at hm2
        have hchunk_ne : chunk ≠ [] := by
          intro e
          have hmrest : mrest = [] := hch_mr e
          rw [e, hmrest] at hdecomp
          simp only [List.append_nil] at hdecomp
          have hk : k ≠ 0 := by
            intro e2
            rw [e2] at hdecomp
            simp at hdecomp
          have hstar : star = true := hstar_iff.mpr hk
          apply hguard
          rw [hstar, e]
          rfl
        have hlen_m : mrest.length ≤ n := by
          have hl2 := congrArg List.length hdecomp
          simp only [List.length_append, List.length_replicate, List.length_cons] at hl2
          have hcl : 1 ≤ chunk.length := by
            cases chunk with
            | nil => exact absurd rfl hchunk_ne
            | cons _ _ => simp
          simp only [List.length_cons] at hlen
          omega
        have hih : ∀ r b', matchMask mrest r = some b' → b' = globSpec mrest r :=
          fun r b' h' => ih mrest r b' hlen_m h'
        have hB : ∀ t, globSpec (chunk ++ mrest) t = restGlob mrest (matchChunk chunk t) := by
          intro t
          rw [globSpec_chunk_append chunk mrest t hnostar]
          cases matchChunk chunk t with
          | none => rfl
          | some r => rfl
        cases star with
        | false =>
          have hk : k = 0 := by
            by_contra hk0
            exact absurd (hstar_iff.mpr hk0) (by simp)
          rw [hk] at hdecomp
          simp only [List.replicate_zero, List.nil_append] at hdecomp
          rw [hdecomp, hB s]
          cases hmc : matchChunk chunk s with
          | none =>
            rw [hmc] at hm2
            dsimp only at hm2
            rw [if_neg (by simp)] at hm2
            have hb : b = false := by simpa using hm2.symm
            simp only [restGlob]
            exact hb
          | some rest =>
            rw [hmc] at hm2
            dsimp only at hm2
            simp only [restGlob]
            by_cases hcond : (rest.isEmpty || !mrest.isEmpty) = true
            · rw [if_pos hcond] at hm2
              dsimp only at hm2
              exact hih rest b hm2
            · rw [if_neg hcond] at hm2
              dsimp only at hm2
              rw [if_neg (by simp)] at hm2
              have hb : b = false := by simpa using hm2.symm
              obtain ⟨hre, hmre⟩ := Bool.or_eq_false_iff.mp (Bool.eq_false_iff.mpr hcond)
              have hmrest : mrest = [] := by simpa using hmre
              rw [hmrest, globSpec_nil, hre]
              exact hb
        | true =>
          have hk : k ≠ 0 := hstar_iff.mp rfl
          obtain ⟨k', rfl⟩ : ∃ k', k = k' + 1 := ⟨k - 1, by omega⟩
          rw [hdecomp, List.append_assoc, globSpec_replicate_star k' (chunk ++ mrest) s,
            globSpec_star_tails]
          simp only [hB]
          rw [tails_self_cons s, List.any_cons]
          cases hmc : matchChunk chunk s with
          | some rest =>
            rw [hmc] at hm2
            dsimp only at hm2
            simp only [restGlob]
            by_cases hcond : (rest.isEmpty || !mrest.isEmpty) = true
            · rw [if_pos hcond] at hm2
              dsimp only at hm2
              rw [hih rest b hm2]
              apply bool_eq_of_iff
              constructor
              · intro h
                rw [h]
                rfl
              · intro h
                rcases Bool.or_eq_true_iff.mp h with h1 | h1
                · exact h1
                · rcases hmr_shape with hmr_nil | ⟨R, hmr_star⟩
                  · subst hmr_nil
                    have hre : rest.isEmpty = true := by
                      rcases Bool.or_eq_true_iff.mp hcond with h2 | h2
                      · exact h2
                      · simp at h2
                    rw [globSpec_nil, hre]
                  · subst hmr_star
                    rw [List.any_eq_true] at h1
                    obtain ⟨t, ht, hbt⟩ := h1
                    have hsuf : t <:+ s := mem_tails_tail t s ht
                    cases hmt : matchChunk chunk t with
                    | none => rw [hmt] at hbt; simp [restGlob] at hbt
                    | some rt =>
                      rw [hmt] at hbt
                      simp only [restGlob] at hbt
                      have hrt : rt = t.drop chunk.length := matchChunk_eq_drop chunk t rt hmt
                      have hrest : rest = s.drop chunk.length :=
                        matchChunk_eq_drop chunk s rest hmc
                      have hsuf2 : rt <:+ rest := by
                        rw [hrt, hrest]
                        exact drop_suffix_of_suffix chunk.length t s hsuf
                      exact globSpec_star_suffix R rt rest hsuf2 hbt
            · rw [if_neg hcond] at hm2
              dsimp only at hm2
              rw [if_pos rfl] at hm2
              obtain ⟨hre, hmre⟩ := Bool.or_eq_false_iff.mp (Bool.eq_false_iff.mpr hcond)
              have hmrest : mrest = [] := by simpa using hmre
              subst hmrest
              rw [globSpec_nil, hre]
              simp only [restGlob_nil, Bool.false_or]
              cases hsl : starLoop chunk [] s with
              | none =>
                rw [hsl] at hm2
                simp at hm2
              | some res =>
                rw [hsl] at hm2
                have hspec := starLoop_empty_sound chunk s res hsl
                cases res with
                | none =>
                  dsimp only at hm2
                  simp only [restNullable] at hspec
                  have hb : b = false := by simpa using hm2.symm
                  rw [hb]
                  simpa only [globSpec_nil] using hspec
                | some r2 =>
                  dsimp only at hm2
                  simp only [restNullable] at hspec
                  rw [matchMask_nil] at hm2
                  have hb : b = r2.isEmpty := by simpa using hm2.symm
                  rw [hb]
                  simpa only [globSpec_nil] using hspec
          | none =>
            rw [hmc] at hm2
            dsimp only at hm2
            rw [if_pos rfl] at hm2
            simp only [restGlob]
            rcases hmr_shape with hmr_nil | ⟨R, hmr_star⟩
            · subst hmr_nil
              simp only [restGlob_nil, Bool.false_or]
              cases hsl : starLoop chunk [] s with
              | none =>
                rw [hsl] at hm2
                simp at hm2
              | some res =>
                rw [hsl] at hm2
                have hspec := starLoop_empty_sound chunk s res hsl
                cases res with
                | none =>
                  dsimp only at hm2
                  simp only [restNullable] at hspec
                  have hb : b = false := by simpa using hm2.symm
                  rw [hb]
                  simpa only [globSpec_nil] using hspec
                | some r2 =>
                  dsimp only at hm2
                  simp only [restNullable] at hspec
                  rw [matchMask_nil] at hm2
                  have hb : b = r2.isEmpty := by simpa using hm2.symm
                  rw [hb]
                  simpa only [globSpec_nil] using hspec
            · subst hmr_star
              simp only [Bool.false_or]
              cases hsl : starLoop chunk ('*' :: R) s with
              | none =>
                rw [hsl] at hm2
                simp at hm2
              | some res =>
                rw [hsl] at hm2
                have hspec := starLoop_star_sound chunk R s res hsl
                cases res with
                | none =>
                  dsimp only at hm2
                  simp only [restGlob] at hspec
                  have hb : b = false := by simpa using hm2.symm
                  rw [hb]
                  exact hspec
                | some r2 =>
                  dsimp only at hm2
                  simp only [restGlob] at hspec
                  have hb := hih r2 b hm2
                  rw [hb]
                  exact hspec

theorem scanChunk_rest_lt (c : Char) (m : List Char) :
    ((scanChunk (c :: m)).2.2).length < (c :: m).length := by
  have key : ∀ L : List Char,
      (List.dropWhile (· != '*') (List.dropWhile (· == '*') (c :: L))).length
        < (c :: L).length := by
    intro L
    by_cases h : (c == '*') = true
    · calc (List.dropWhile (· != '*') ((c :: L).dropWhile (· == '*'))).length
          ≤ ((c :: L).dropWhile (· == '*')).length := (List.dropWhile_sublist _).length_le
        _ = (L.dropWhile (· == '*')).length := by simp [List.dropWhile_cons, h]
        _ ≤ L.length := (List.dropWhile_sublist _).length_le
        _ < (c :: L).length := by simp [Nat.lt_succ_self]
    · have hc : (c != '*') = true := by simpa [bne] using h
      calc (List.dropWhile (· != '*') ((c :: L).dropWhile (· == '*'))).length
          = (List.dropWhile (· != '*') (c :: L)).length := by
            simp [List.dropWhile_cons, h]
        _ = (List.dropWhile (· != '*') L).length := by simp [List.dropWhile_cons, hc]
        _ ≤ L.length := (List.dropWhile_sublist _).length_le
        _ < (c :: L).length := by simp [Nat.lt_succ_self]
  simpa [scanChunk] using key m

theorem matchMaskE_eq (fuel : Nat) (mask s : List Char) (h : mask.length < fuel) :
    matchMaskE fuel mask s = matchMask mask s := by
  induction fuel generalizing mask s with
  | zero => exact absurd h (Nat.not_lt_zero _)
  | succ fuel ih =>
    cases mask with
    | nil =>
      rw [matchMask_nil]
      rfl
    | cons c m =>
      rcases hsc : scanChunk (c :: m) with ⟨star, chunk, mrest⟩
      have hlt : mrest.length < (c :: m).length := by
        have := scanChunk_rest_lt c m
        rw [hsc] at this
        exact this
      have hrec : ∀ r, matchMaskE fuel mrest r = matchMask mrest r := fun r =>
        ih mrest r (by simp only [List.length_cons] at h hlt; omega)
      rw [matchMask_cons c m star chunk mrest hsc s]
      conv_lhs => rw [matchMaskE]
      rw [hsc]
      simp only [hrec]


theorem starLoop_total (chunk mask s : List Char) (hS : ∀ c ∈ s, c.utf8Size = 1) :
    ∃ res, starLoop chunk mask s = some res := by
  induction s with
  | nil => exact ⟨none, rfl⟩
  | cons c s' ih =>
    have hS' : ∀ c' ∈ s', c'.utf8Size = 1 := fun c' hc' => hS c' (List.mem_cons_of_mem c hc')
    simp only [starLoop]
    rw [if_neg (by simp [hS c (List.mem_cons_self c s')])]
    cases hmc : matchChunk chunk s' with
    | some rest =>
      dsimp only
      by_cases hcond : (mask.isEmpty && !rest.isEmpty) = true
      · rw [if_pos hcond]
        exact ih hS'
      · rw [if_neg hcond]
        exact ⟨some rest, rfl⟩
    | none => exact ih hS'

theorem starLoop_some_suffix (chunk mask s r : List Char)
    (h : starLoop chunk mask s = some (some r)) :
    ∃ t, t <:+ s ∧ matchChunk chunk t = some r := by
  induction s with
  | nil => simp [starLoop] at h
  | cons c s' ih =>
    simp only [starLoop] at h
    by_cases hc : (c.utf8Size != 1) = true
    · rw [if_pos hc] at h
      simp at h
    · rw [if_neg hc] at h
      cases hmc : matchChunk chunk s' with
      | some rest =>
        rw [hmc] at h
        dsimp only at h
        by_cases hcond : (mask.isEmpty && !rest.isEmpty) = true
        · rw [if_pos hcond] at h
          obtain ⟨t, ht, hmt⟩ := ih h
          exact ⟨t, ht.trans (List.suffix_cons c s'), hmt⟩
        · rw [if_neg hcond] at h
          have hr : rest = r := by simpa using h
          exact ⟨s', List.suffix_cons c s', hr ▸ hmc⟩
      | none =>
        rw [hmc] at h
        obtain ⟨t, ht, hmt⟩ := ih h
        exact ⟨t, ht.trans (List.suffix_cons c s'), hmt⟩

theorem matchMask_total (mask s : List Char) (hS : ∀ c ∈ s, c.utf8Size = 1) :
    ∃ b, matchMask mask s = some b := by
  suffices H : ∀ (n : Nat) (mask s : List Char), mask.length ≤ n →
      (∀ c ∈ s, c.utf8Size = 1) → ∃ b, matchMask mask s = some b by
    exact H mask.length mask s (Nat.le_refl _) hS
  intro n
  induction n with
  | zero =>
    intro mask s hlen _
    have hm : mask = [] := List.eq_nil_of_length_eq_zero (Nat.le_zero.mp hlen)
    subst hm
    exact ⟨s.isEmpty, matchMask_nil s⟩
  | succ n ih =>
    intro mask s hlen hS
    cases mask with
    | nil => exact ⟨s.isEmpty, matchMask_nil s⟩
    | cons c m =>
      rcases hsc : scanChunk (c :: m) with ⟨star, chunk, mrest⟩
      have hlt : mrest.length < (c :: m).length := by
        have := scanChunk_rest_lt c m
        rw [hsc] at this
        exact this
      have hlen_m : mrest.length ≤ n := by
        simp only [List.length_cons] at hlen hlt
        omega
      rw [matchMask_cons c m star chunk mrest hsc s]
      by_cases hguard : (star && chunk.isEmpty) = true
      · rw [if_pos hguard]
        exact ⟨true, rfl⟩
      · rw [if_neg hguard]
        cases hmc : matchChunk chunk s with
        | some rest =>
          dsimp only
          by_cases hcond : (rest.isEmpty || !mrest.isEmpty) = true
          · rw [if_pos hcond]
            dsimp only
            have hrest : rest = s.drop chunk.length := matchChunk_eq_drop chunk s rest hmc
            have hS' : ∀ c' ∈ rest, c'.utf8Size = 1 := by
              intro c' hc'
              apply hS
              rw [hrest] at hc'
              exact List.drop_subset _ _ hc'
            exact ih mrest rest hlen_m hS'
          · rw [if_neg hcond]
            dsimp only
            cases star with
            | false => exact ⟨false, by simp⟩
            | true =>
              rw [if_pos rfl]
              obtain ⟨res, hres⟩ := starLoop_total chunk mrest s hS
              rw [hres]
              cases res with
              | none => exact ⟨false, rfl⟩
              | some r2 =>
                dsimp only
                obtain ⟨t, ht, hmt⟩ := starLoop_some_suffix chunk mrest s r2 hres
                have hr2 : r2 = t.drop chunk.length := matchChunk_eq_drop chunk t r2 hmt
                have hS' : ∀ c' ∈ r2, c'.utf8Size = 1 := by
                  intro c' hc'
                  apply hS
                  apply ht.subset
                  rw [hr2] at hc'
                  exact List.drop_subset _ _ hc'
                exact ih mrest r2 hlen_m hS'
        | none =>
          dsimp only
          cases star with
          | false => exact ⟨false, by simp⟩
          | true =>
            rw [if_pos rfl]
            obtain ⟨res, hres⟩ := starLoop_total chunk mrest s hS
            rw [hres]
            cases res with
            | none => exact ⟨false, rfl⟩
            | some r2 =>
              dsimp only
              obtain ⟨t, ht, hmt⟩ := starLoop_some_suffix chunk mrest s r2 hres
              have hr2 : r2 = t.drop chunk.length := matchChunk_eq_drop chunk t r2 hmt
              have hS' : ∀ c' ∈ r2, c'.utf8Size = 1 := by
                intro c' hc'
                apply hS
                apply ht.subset
                rw [hr2] at hc'
                exact List.drop_subset _ _ hc'
              exact ih mrest r2 hlen_m hS'

theorem matchMask_ascii (mask s : List Char) (hS : ∀ c ∈ s, c.utf8Size = 1) :
    matchMask mask s = some (globSpec mask s) := by
  obtain ⟨b, hb⟩ := matchMask_total mask s hS
  rw [hb, matchMask_sound mask s b hb]


/-! ## Further lemmas for apply_mode_change -/

theorem insert_false_unchanged (s : MaskSet) (mk : List Char)
    (h : (s.insert mk).1 = false) : (s.insert mk).2 = s := by
  by_cases hm : mk ∈ splitComma s.raw
  · rw [insert_of_mem s mk hm]
  · rw [insert_of_not_mem s mk hm] at h
    simp at h

theorem insert_true_changed (s : MaskSet) (mk : List Char)
    (h : (s.insert mk).1 = true) : (s.insert mk).2 ≠ s := by
  intro e
  exact insert_true_raw_ne s mk h (congrArg MaskSet.raw e)

theorem remove_false_unchanged (s : MaskSet) (mk : List Char)
    (h : (s.remove mk).1 = false) : (s.remove mk).2 = s := by
  cases hf : (splitComma s.raw).findIdx? (· == mk) with
  | none => rw [remove_of_not_found s mk hf]
  | some j =>
    rw [remove_of_found s mk j hf] at h
    simp at h

theorem remove_applied_iff_mem (s : MaskSet) (mk : List Char) :
    (s.remove mk).1 = decide (mk ∈ splitComma s.raw) := by
  cases hf : (splitComma s.raw).findIdx? (· == mk) with
  | none =>
    rw [remove_of_not_found s mk hf]
    have := List.findIdx?_eq_none_iff.mp hf
    have hnm : mk ∉ splitComma s.raw := by
      intro hm
      have h2 := this mk hm
      simp at h2
    simp [hnm]
  | some j =>
    obtain ⟨hlt, hpj, -⟩ := List.findIdx?_eq_some_iff_getElem.mp hf
    have hmk : (splitComma s.raw)[j] = mk := by simpa using hpj
    have hm : mk ∈ splitComma s.raw := hmk ▸ List.getElem_mem hlt
    rw [remove_of_found s mk j hf]
    simp [hm]

theorem memberModes_set_op_eq (m : MemberModes) : { m with operator := m.operator } = m := by
  cases m
  rfl

theorem memberModes_set_op_ne (m : MemberModes) (v : Bool) (h : m.operator ≠ v) :
    { m with operator := v } ≠ m := by
  cases m
  intro e
  rw [MemberModes.mk.injEq] at e
  exact h e.2.2.1.symm

theorem memberModes_set_halfop_eq (m : MemberModes) : { m with halfop := m.halfop } = m := by
  cases m
  rfl

theorem memberModes_set_halfop_ne (m : MemberModes) (v : Bool) (h : m.halfop ≠ v) :
    { m with halfop := v } ≠ m := by
  cases m
  intro e
  rw [MemberModes.mk.injEq] at e
  exact h e.2.2.2.1.symm

theorem memberModes_set_voice_eq (m : MemberModes) : { m with voice := m.voice } = m := by
  cases m
  rfl

theorem memberModes_set_voice_ne (m : MemberModes) (v : Bool) (h : m.voice ≠ v) :
    { m with voice := v } ≠ m := by
  cases m
  intro e
  rw [MemberModes.mk.injEq] at e
  exact h e.2.2.2.2.symm

/-- C7 (amended): whenever apply_mode_change returns Ok(applied), applied
false means the channel is observably unchanged, and applied true means the
channel changed — except for mask removals, where applied is exactly the
membership test of the removed mask (true iff the mask was present), which
can hold with the stored mask string unchanged in the trailing-empty-mask
corner case; query forms return Ok(false) and change nothing. -/
theorem C7_apply_mode_change_applied (c : Channel) (change : ChannelChange) (keylen : Nat)
    (nick_of : Nat → List Char) (applied : Bool) (c' : Channel)
    (h : c.apply_mode_change change keylen nick_of = some (.ok applied, c')) :
    (applied = false → c' = c) ∧
    (isMaskRemoval change = false → applied = true → c' ≠ c) ∧
    (∀ mk, change = .ChangeBan false mk → applied = decide (mk ∈ c.ban_mask.masks)) ∧
    (∀ mk, change = .ChangeException false mk →
      applied = decide (mk ∈ c.exception_mask.masks)) ∧
    (∀ mk, change = .ChangeInvitation false mk →
      applied = decide (mk ∈ c.invex_mask.masks)) ∧
    (isQueryForm change = true → applied = false ∧ c' = c) := by
  obtain ⟨mem, top, ul, ky, bm, em, im, io, mo, nm, se, tr⟩ := c
  cases change with
  | InviteOnly v =>
    simp only [Channel.apply_mode_change, Option.some.injEq, Prod.mk.injEq,
      Except.ok.injEq] at h
    obtain ⟨hap, hc'⟩ := h
    subst hc'
    refine ⟨?_, ?_, fun mk he => ChannelChange.noConfusion he,
      fun mk he => ChannelChange.noConfusion he,
      fun mk he => ChannelChange.noConfusion he, fun hq => Bool.noConfusion hq⟩
    · intro hf
      rw [hf] at hap
      have hv : io = v := by simpa using hap
      rw [hv]
    · intro _ ht
      rw [ht] at hap
      have hv : io ≠ v := by simpa using hap
      intro e
      rw [Channel.mk.injEq] at e
      exact hv e.2.2.2.2.2.2.2.1.symm
  | Moderated v =>
    simp only [Channel.apply_mode_change, Option.some.injEq, Prod.mk.injEq,
      Except.ok.injEq] at h
    obtain ⟨hap, hc'⟩ := h
    subst hc'
    refine ⟨?_, ?_, fun mk he => ChannelChange.noConfusion he,
      fun mk he => ChannelChange.noConfusion he,
      fun mk he => ChannelChange.noConfusion he, fun hq => Bool.noConfusion hq⟩
    · intro hf
      rw [hf] at hap
      have hv : mo = v := by simpa using hap
      rw [hv]
    · intro _ ht
      rw [ht] at hap
      have hv : mo ≠ v := by simpa using hap
      intro e
      rw [Channel.mk.injEq] at e
      exact hv e.2.2.2.2.2.2.2.2.1.symm
  | NoPrivMsgFromOutside v =>
    simp only [Channel.apply_mode_change, Option.some.injEq, Prod.mk.injEq,
      Except.ok.injEq] at h
    obtain ⟨hap, hc'⟩ := h
    subst hc'
    refine ⟨?_, ?_, fun mk he => ChannelChange.noConfusion he,
      fun mk he => ChannelChange.noConfusion he,
      fun mk he => ChannelChange.noConfusion he, fun hq => Bool.noConfusion hq⟩
    · intro hf
      rw [hf] at hap
      have hv : nm = v := by simpa using hap
      rw [hv]
    · intro _ ht
      rw [ht] at hap
      have hv : nm ≠ v := by simpa using hap
      intro e
      rw [Channel.mk.injEq] at e
      exact hv e.2.2.2.2.2.2.2.2.2.1.symm
  | Secret v =>
    simp only [Channel.apply_mode_change, Option.some.injEq, Prod.mk.injEq,
      Except.ok.injEq] at h
    obtain ⟨hap, hc'⟩ := h
    subst hc'
    refine ⟨?_, ?_, fun mk he => ChannelChange.noConfusion he,
      fun mk he => ChannelChange.noConfusion he,
      fun mk he => ChannelChange.noConfusion he, fun hq => Bool.noConfusion hq⟩
    · intro hf
      rw [hf] at hap
      have hv : se = v := by simpa using hap
      rw [hv]
    · intro _ ht
      rw [ht] at hap
      have hv : se ≠ v := by simpa using hap
      intro e
      rw [Channel.mk.injEq] at e
      exact hv e.2.2.2.2.2.2.2.2.2.2.1.symm
  | TopicRestricted v =>
    simp only [Channel.apply_mode_change, Option.some.injEq, Prod.mk.injEq,
      Except.ok.injEq] at h
    obtain ⟨hap, hc'⟩ := h
    subst hc'
    refine ⟨?_, ?_, fun mk he => ChannelChange.noConfusion he,
      fun mk he => ChannelChange.noConfusion he,
      fun mk he => ChannelChange.noConfusion he, fun hq => Bool.noConfusion hq⟩
    · intro hf
      rw [hf] at hap
      have hv : tr = v := by simpa using hap
      rw [hv]
    · intro _ ht
      rw [ht] at hap
      have hv : tr ≠ v := by simpa using hap
      intro e
      rw [Channel.mk.injEq] at e
      exact hv e.2.2.2.2.2.2.2.2.2.2.2.symm
  | Key v k =>
    cases v with
    | true =>
      cases ky with
      | some k0 => simp [Channel.apply_mode_change] at h
      | none =>
        cases hbt : byteTake (min (utf8Len k) keylen) k with
        | none => simp [Channel.apply_mode_change, hbt] at h
        | some k' =>
          simp only [Channel.apply_mode_change, hbt, if_true, Option.some.injEq,
            Prod.mk.injEq, Except.ok.injEq] at h
          obtain ⟨hap, hc'⟩ := h
          subst hc'
          refine ⟨?_, ?_, fun mk he => ChannelChange.noConfusion he,
            fun mk he => ChannelChange.noConfusion he,
            fun mk he => ChannelChange.noConfusion he, fun hq => Bool.noConfusion hq⟩
          · intro hf
            rw [hf] at hap
            exact Bool.noConfusion hap
          · intro _ _
            intro e
            rw [Channel.mk.injEq] at e
            exact Option.noConfusion e.2.2.2.1
    | false =>
      cases ky with
      | some k0 =>
        simp only [Channel.apply_mode_change, Bool.false_eq_true, if_false,
          Option.some.injEq, Prod.mk.injEq, Except.ok.injEq] at h
        obtain ⟨hap, hc'⟩ := h
        subst hc'
        refine ⟨?_, ?_, fun mk he => ChannelChange.noConfusion he,
          fun mk he => ChannelChange.noConfusion he,
          fun mk he => ChannelChange.noConfusion he, fun hq => Bool.noConfusion hq⟩
        · intro hf
          rw [hf] at hap
          exact Bool.noConfusion hap
        · intro _ _
          intro e
          rw [Channel.mk.injEq] at e
          exact Option.noConfusion e.2.2.2.1
      | none =>
        simp only [Channel.apply_mode_change, Bool.false_eq_true, if_false,
          Option.some.injEq, Prod.mk.injEq, Except.ok.injEq] at h
        obtain ⟨hap, hc'⟩ := h
        subst hc'
        refine ⟨fun _ => rfl, ?_, fun mk he => ChannelChange.noConfusion he,
          fun mk he => ChannelChange.noConfusion he,
          fun mk he => ChannelChange.noConfusion he, fun hq => Bool.noConfusion hq⟩
        · intro _ ht
          rw [ht] at hap
          exact Bool.noConfusion hap
  | UserLimit lim =>
    cases lim with
    | some s =>
      cases hp : parseUsize s with
      | none =>
        simp only [Channel.apply_mode_change, hp, Option.some.injEq, Prod.mk.injEq,
          Except.ok.injEq] at h
        obtain ⟨hap, hc'⟩ := h
        subst hc'
        refine ⟨fun _ => rfl, ?_, fun mk he => ChannelChange.noConfusion he,
          fun mk he => ChannelChange.noConfusion he,
          fun mk he => ChannelChange.noConfusion he, fun hq => Bool.noConfusion hq⟩
        · intro _ ht
          rw [ht] at hap
          exact Bool.noConfusion hap
      | some limit =>
        cases ul with
        | none =>
          simp only [Channel.apply_mode_change, hp, Option.some.injEq, Prod.mk.injEq,
            Except.ok.injEq] at h
          obtain ⟨hap, hc'⟩ := h
          subst hc'
          refine ⟨?_, ?_, fun mk he => ChannelChange.noConfusion he,
            fun mk he => ChannelChange.noConfusion he,
            fun mk he => ChannelChange.noConfusion he, fun hq => Bool.noConfusion hq⟩
          · intro hf
            rw [hf] at hap
            exact Bool.noConfusion hap
          · intro _ _
            intro e
            rw [Channel.mk.injEq] at e
            exact Option.noConfusion e.2.2.1
        | some cl =>
          simp only [Channel.apply_mode_change, hp, Option.some.injEq, Prod.mk.injEq,
            Except.ok.injEq] at h
          obtain ⟨hap, hc'⟩ := h
          subst hc'
          refine ⟨?_, ?_, fun mk he => ChannelChange.noConfusion he,
            fun mk he => ChannelChange.noConfusion he,
            fun mk he => ChannelChange.noConfusion he, fun hq => Bool.noConfusion hq⟩
          · intro hf
            rw [hf] at hap
            have hcl : cl = limit := by simpa using hap
            rw [hcl]
          · intro _ ht
            rw [ht] at hap
            have hcl : cl ≠ limit := by simpa using hap
            intro e
            rw [Channel.mk.injEq] at e
            have h2 := e.2.2.1
            rw [Option.some.injEq] at h2
            exact hcl h2.symm
    | none =>
      simp only [Channel.apply_mode_change, Option.some.injEq, Prod.mk.injEq,
        Except.ok.injEq] at h
      obtain ⟨hap, hc'⟩ := h
      subst hc'
      refine ⟨?_, ?_, fun mk he => ChannelChange.noConfusion he,
        fun mk he => ChannelChange.noConfusion he,
        fun mk he => ChannelChange.noConfusion he, fun hq => Bool.noConfusion hq⟩
      · intro hf
        rw [hf] at hap
        have hun : ul = none := by
          cases ul with
          | none => rfl
          | some u => simp at hap
        rw [hun]
      · intro _ ht
        rw [ht] at hap
        cases ul with
        | none => simp at hap
        | some u =>
          intro e
          rw [Channel.mk.injEq] at e
          exact Option.noConfusion e.2.2.1
  | ChangeBan v mk0 =>
    cases v with
    | true =>
      simp only [Channel.apply_mode_change, if_true, Option.some.injEq, Prod.mk.injEq,
        Except.ok.injEq] at h
      obtain ⟨hap, hc'⟩ := h
      subst hc'
      refine ⟨?_, ?_, fun mk he => ?_, fun mk he => ChannelChange.noConfusion he,
        fun mk he => ChannelChange.noConfusion he, fun hq => Bool.noConfusion hq⟩
      · intro hf
        rw [hf] at hap
        rw [insert_false_unchanged bm mk0 hap]
      · intro _ ht
        rw [ht] at hap
        intro e
        rw [Channel.mk.injEq] at e
        exact insert_true_changed bm mk0 hap e.2.2.2.2.1
      · rw [ChannelChange.ChangeBan.injEq] at he
        exact Bool.noConfusion he.1
    | false =>
      simp only [Channel.apply_mode_change, Bool.false_eq_true, if_false, Option.some.injEq,
        Prod.mk.injEq, Except.ok.injEq] at h
      obtain ⟨hap, hc'⟩ := h
      subst hc'
      refine ⟨?_, ?_, fun mk he => ?_, fun mk he => ChannelChange.noConfusion he,
        fun mk he => ChannelChange.noConfusion he, fun hq => Bool.noConfusion hq⟩
      · intro hf
        rw [hf] at hap
        rw [remove_false_unchanged bm mk0 hap]
      · intro hmr
        simp [isMaskRemoval] at hmr
      · rw [ChannelChange.ChangeBan.injEq] at he
        rw [← he.2, ← hap]
        exact remove_applied_iff_mem bm mk0
  | ChangeException v mk0 =>
    cases v with
    | true =>
      simp only [Channel.apply_mode_change, if_true, Option.some.injEq, Prod.mk.injEq,
        Except.ok.injEq] at h
      obtain ⟨hap, hc'⟩ := h
      subst hc'
      refine ⟨?_, ?_, fun mk he => ChannelChange.noConfusion he, fun mk he => ?_,
        fun mk he => ChannelChange.noConfusion he, fun hq => Bool.noConfusion hq⟩
      · intro hf
        rw [hf] at hap
        rw [insert_false_unchanged em mk0 hap]
      · intro _ ht
        rw [ht] at hap
        intro e
        rw [Channel.mk.injEq] at e
        exact insert_true_changed em mk0 hap e.2.2.2.2.2.1
      · rw [ChannelChange.ChangeException.injEq] at he
        exact Bool.noConfusion he.1
    | false =>
      simp only [Channel.apply_mode_change, Bool.false_eq_true, if_false, Option.some.injEq,
        Prod.mk.injEq, Except.ok.injEq] at h
      obtain ⟨hap, hc'⟩ := h
      subst hc'
      refine ⟨?_, ?_, fun mk he => ChannelChange.noConfusion he, fun mk he => ?_,
        fun mk he => ChannelChange.noConfusion he, fun hq => Bool.noConfusion hq⟩
      · intro hf
        rw [hf] at hap
        rw [remove_false_unchanged em mk0 hap]
      · intro hmr
        simp [isMaskRemoval] at hmr
      · rw [ChannelChange.ChangeException.injEq] at he
        rw [← he.2, ← hap]
        exact remove_applied_iff_mem em mk0
  | ChangeInvitation v mk0 =>
    cases v with
    | true =>
      simp only [Channel.apply_mode_change, if_true, Option.some.injEq, Prod.mk.injEq,
        Except.ok.injEq] at h
      obtain ⟨hap, hc'⟩ := h
      subst hc'
      refine ⟨?_, ?_, fun mk he => ChannelChange.noConfusion he,
        fun mk he => ChannelChange.noConfusion he, fun mk he => ?_,
        fun hq => Bool.noConfusion hq⟩
      · intro hf
        rw [hf] at hap
        rw [insert_false_unchanged im mk0 hap]
      · intro _ ht
        rw [ht] at hap
        intro e
        rw [Channel.mk.injEq] at e
        exact insert_true_changed im mk0 hap e.2.2.2.2.2.2.1
      · rw [ChannelChange.ChangeInvitation.injEq] at he
        exact Bool.noConfusion he.1
    | false =>
      simp only [Channel.apply_mode_change, Bool.false_eq_true, if_false, Option.some.injEq,
        Prod.mk.injEq, Except.ok.injEq] at h
      obtain ⟨hap, hc'⟩ := h
      subst hc'
      refine ⟨?_, ?_, fun mk he => ChannelChange.noConfusion he,
        fun mk he => ChannelChange.noConfusion he, fun mk he => ?_,
        fun hq => Bool.noConfusion hq⟩
      · intro hf
        rw [hf] at hap
        rw [remove_false_unchanged im mk0 hap]
      · intro hmr
        simp [isMaskRemoval] at hmr
      · rw [ChannelChange.ChangeInvitation.injEq] at he
        rw [← he.2, ← hap]
        exact remove_applied_iff_mem im mk0
  | ChangeOperator v mk0 =>
    cases hml : memberLoop nick_of mk0 v (fun m => m.operator)
        (fun b m => { m with operator := b }) mem with
    | none => simp [Channel.apply_mode_change, hml] at h
    | some r =>
      obtain ⟨ap2, mem2⟩ := r
      simp only [Channel.apply_mode_change, hml, Option.some.injEq, Prod.mk.injEq,
        Except.ok.injEq] at h
      obtain ⟨hap, hc'⟩ := h
      subst hc'
      obtain ⟨hm1, hm2⟩ := memberLoop_spec nick_of mk0 v (fun m => m.operator)
        (fun b m => { m with operator := b }) memberModes_set_op_eq
        memberModes_set_op_ne mem ap2 mem2 hml
      refine ⟨?_, ?_, fun mk he => ChannelChange.noConfusion he,
        fun mk he => ChannelChange.noConfusion he,
        fun mk he => ChannelChange.noConfusion he, fun hq => Bool.noConfusion hq⟩
      · intro hf
        rw [hf] at hap
        rw [hm1 hap]
      · intro _ ht
        rw [ht] at hap
        intro e
        rw [Channel.mk.injEq] at e
        exact hm2 hap e.1
  | ChangeHalfop v mk0 =>
    cases hml : memberLoop nick_of mk0 v (fun m => m.halfop)
        (fun b m => { m with halfop := b }) mem with
    | none => simp [Channel.apply_mode_change, hml] at h
    | some r =>
      obtain ⟨ap2, mem2⟩ := r
      simp only [Channel.apply_mode_change, hml, Option.some.injEq, Prod.mk.injEq,
        Except.ok.injEq] at h
      obtain ⟨hap, hc'⟩ := h
      subst hc'
      obtain ⟨hm1, hm2⟩ := memberLoop_spec nick_of mk0 v (fun m => m.halfop)
        (fun b m => { m with halfop := b }) memberModes_set_halfop_eq
        memberModes_set_halfop_ne mem ap2 mem2 hml
      refine ⟨?_, ?_, fun mk he => ChannelChange.noConfusion he,
        fun mk he => ChannelChange.noConfusion he,
        fun mk he => ChannelChange.noConfusion he, fun hq => Bool.noConfusion hq⟩
      · intro hf
        rw [hf] at hap
        rw [hm1 hap]
      · intro _ ht
        rw [ht] at hap
        intro e
        rw [Channel.mk.injEq] at e
        exact hm2 hap e.1
  | ChangeVoice v mk0 =>
    cases hml : memberLoop nick_of mk0 v (fun m => m.voice)
        (fun b m => { m with voice := b }) mem with
    | none => simp [Channel.apply_mode_change, hml] at h
    | some r =>
      obtain ⟨ap2, mem2⟩ := r
      simp only [Channel.apply_mode_change, hml, Option.some.injEq, Prod.mk.injEq,
        Except.ok.injEq] at h
      obtain ⟨hap, hc'⟩ := h
      subst hc'
      obtain ⟨hm1, hm2⟩ := memberLoop_spec nick_of mk0 v (fun m => m.voice)
        (fun b m => { m with voice := b }) memberModes_set_voice_eq
        memberModes_set_voice_ne mem ap2 mem2 hml
      refine ⟨?_, ?_, fun mk he => ChannelChange.noConfusion he,
        fun mk he => ChannelChange.noConfusion he,
        fun mk he => ChannelChange.noConfusion he, fun hq => Bool.noConfusion hq⟩
      · intro hf
        rw [hf] at hap
        rw [hm1 hap]
      · intro _ ht
        rw [ht] at hap
        intro e
        rw [Channel.mk.injEq] at e
        exact hm2 hap e.1
  | GetBans =>
    simp only [Channel.apply_mode_change, Option.some.injEq, Prod.mk.injEq,
      Except.ok.injEq] at h
    obtain ⟨hap, hc'⟩ := h
    subst hc'
    refine ⟨fun _ => rfl, ?_, fun mk he => ChannelChange.noConfusion he,
      fun mk he => ChannelChange.noConfusion he,
      fun mk he => ChannelChange.noConfusion he, fun _ => ⟨hap.symm, rfl⟩⟩
    · intro _ ht
      rw [ht] at hap
      exact Bool.noConfusion hap
  | GetExceptions =>
    simp only [Channel.apply_mode_change, Option.some.injEq, Prod.mk.injEq,
      Except.ok.injEq] at h
    obtain ⟨hap, hc'⟩ := h
    subst hc'
    refine ⟨fun _ => rfl, ?_, fun mk he => ChannelChange.noConfusion he,
      fun mk he => ChannelChange.noConfusion he,
      fun mk he => ChannelChange.noConfusion he, fun _ => ⟨hap.symm, rfl⟩⟩
    · intro _ ht
      rw [ht] at hap
      exact Bool.noConfusion hap
  | GetInvitations =>
    simp only [Channel.apply_mode_change, Option.some.injEq, Prod.mk.injEq,
      Except.ok.injEq] at h
    obtain ⟨hap, hc'⟩ := h
    subst hc'
    refine ⟨fun _ => rfl, ?_, fun mk he => ChannelChange.noConfusion he,
      fun mk he => ChannelChange.noConfusion he,
      fun mk he => ChannelChange.noConfusion he, fun _ => ⟨hap.symm, rfl⟩⟩
    · intro _ ht
      rw [ht] at hap
      exact Bool.noConfusion hap

/-- C7 is false as stated: on a channel whose ban set is stored as the
string a-comma (members a and the empty mask), removing the empty mask
returns Ok(true) — applied is true — yet the channel is left completely
unchanged, so applied true does not imply an observable difference. -/
theorem C7_counterexample :
    ({ chanEmpty with ban_mask := ⟨"a,".data⟩ } : Channel).apply_mode_change
        (.ChangeBan false []) 0 (fun _ => []) =
      some (.ok true, { chanEmpty with ban_mask := ⟨"a,".data⟩ }) := by
  decide

/-- Witness for C7's amended theorem at a concrete input: setting invite-only
on a fresh channel is applied and observably changes the channel. -/
theorem C7_witness :
    ({ chanEmpty with invite_only := true } : Channel) ≠ chanEmpty :=
  (C7_apply_mode_change_applied chanEmpty (.InviteOnly true) 0 (fun _ => []) true
      { chanEmpty with invite_only := true } (by decide)).2.1 rfl rfl

/-- C1 is false as stated: with keylen 2 and the two-code-point key composed
of an accented e (two UTF-8 bytes) and the letter a, the stored key is the
first two BYTES (just the accented e), not the first two code points. -/
theorem C1_counterexample :
    chanEmpty.apply_mode_change (.Key true ['é', 'a']) 2 (fun _ => []) =
      some (.ok true, { chanEmpty with key := some ['é'] }) ∧
    ['é'] ≠ List.take 2 ['é', 'a'] := by
  constructor
  · decide
  · decide

/-- C1 (amended): for a channel whose key is unset, Key(true, k) succeeds
and stores the first min(byte-length of k, keylen) bytes of k — a prefix of
k whose UTF-8 byte length is exactly that minimum — provided that byte
count falls on a character boundary (the byteTake hypothesis; otherwise the
source panics).  On ASCII keys bytes and code points coincide. -/
theorem C1_amended (c : Channel) (k k' : List Char) (keylen : Nat)
    (nick_of : Nat → List Char) (hkey : c.key = none)
    (hb : byteTake (min (utf8Len k) keylen) k = some k') :
    c.apply_mode_change (.Key true k) keylen nick_of =
      some (.ok true, { c with key := some k' }) ∧
    k' <+: k ∧ utf8Len k' = min (utf8Len k) keylen := by
  refine ⟨?_, byteTake_some _ _ _ hb⟩
  simp [Channel.apply_mode_change, hkey, hb]

/-- Witness for C1's amended theorem at a concrete input: a three-letter
ASCII key truncated to two bytes. -/
theorem C1_witness :
    chanEmpty.apply_mode_change (.Key true ['a', 'b', 'c']) 2 (fun _ => []) =
      some (.ok true, { chanEmpty with key := some ['a', 'b'] }) ∧
    ['a', 'b'] <+: ['a', 'b', 'c'] ∧
    utf8Len ['a', 'b'] = min (utf8Len ['a', 'b', 'c']) 2 :=
  C1_amended chanEmpty ['a', 'b', 'c'] ['a', 'b'] 2 (fun _ => []) rfl (by decide)

/-- C2 is false as stated: add_member overwrites an existing membership.  On
a channel whose only member 1 is an operator, add_member 1 replaces member
1's modes with the all-false default. -/
theorem C2_counterexample :
    (({ chanEmpty with
        members := [(1, ⟨false, false, true, false, false⟩)] } : Channel).add_member 1).members =
      [(1, MemberModes.default)] ∧
    MemberModes.default ≠ (⟨false, false, true, false, false⟩ : MemberModes) := by
  constructor
  · decide
  · decide

/-- C2 (amended): add_member assigns operator modes when the channel is
empty and the all-false default otherwise; entries of other members are
unchanged; an existing member with the same id has its modes overwritten
with the freshly computed modes (HashMap::insert semantics), not
preserved. -/
theorem C2_amended (c : Channel) (id : Nat) :
    ((c.add_member id).members.lookup id =
      some (if c.members.isEmpty then (⟨false, false, true, false, false⟩ : MemberModes)
            else MemberModes.default)) ∧
    (∀ j, j ≠ id → (c.add_member id).members.lookup j = c.members.lookup j) := by
  constructor
  · unfold Channel.add_member
    by_cases h : c.members.isEmpty
    · simp only [h, if_true]
      exact lookup_mapInsert_self c.members id _
    · simp only [h, if_false]
      exact lookup_mapInsert_self c.members id _
  · intro j hj
    unfold Channel.add_member
    exact lookup_mapInsert_ne c.members id j _ hj

/-- Witness for C2's amended theorem at a concrete input. -/
theorem C2_witness :
    ((chanEmpty.add_member 5).members.lookup 5 =
      some (if chanEmpty.members.isEmpty then (⟨false, false, true, false, false⟩ : MemberModes)
            else MemberModes.default)) ∧
    (chanEmpty.add_member 5).members.lookup 7 = chanEmpty.members.lookup 7 :=
  ⟨(C2_amended chanEmpty 5).1, (C2_amended chanEmpty 5).2 7 (by decide)⟩

/-- C4: when the channel key is already set, apply_mode_change(Key(true, k))
returns Err(ERR_KEYSET) and the channel is returned unchanged. -/
theorem C4_keyset_error (c : Channel) (k0 k : List Char) (keylen : Nat)
    (nick_of : Nat → List Char) (h : c.key = some k0) :
    c.apply_mode_change (.Key true k) keylen nick_of =
      some (.error .ERR_KEYSET, c) := by
  simp [Channel.apply_mode_change, h]

/-- Witness for C4 at a concrete input. -/
theorem C4_witness :
    ({ chanEmpty with key := some ['s'] } : Channel).apply_mode_change
        (.Key true ['k']) 5 (fun _ => []) =
      some (.error .ERR_KEYSET, { chanEmpty with key := some ['s'] }) :=
  C4_keyset_error { chanEmpty with key := some ['s'] } ['s'] ['k'] 5 (fun _ => []) rfl

/-- C3 is false as stated: batch_end with no open batch is silently
ignored — on a fresh ReplyBuffer it returns the buffer unchanged, emitting
nothing and raising no failure, rather than failing loudly. -/
theorem C3_counterexample :
    ReplyBuffer.batch_end [] [] ⟨[], none, false⟩ = (⟨[], none, false⟩ : ReplyBuffer) := by
  rfl

theorem replyBuffer_message_batch (label pfx cmd : List Char) (rb : ReplyBuffer) :
    (rb.message label pfx cmd).2.batch = rb.batch := by
  obtain ⟨buf, batch, hl⟩ := rb
  unfold ReplyBuffer.message ReplyBuffer.tagged_message
  cases hl <;> cases batch <;> rfl

theorem replyBuffer_batch_end_batch (domain label : List Char) (rb : ReplyBuffer) (p : Nat)
    (h : rb.batch = some p) :
    (rb.batch_end domain label).batch = if p == 0 then none else some (p - 1) := by
  unfold ReplyBuffer.batch_end
  rw [h]
  rw [replyBuffer_message_batch]

/-- C3 (amended): batch ids come from a monotone counter and
batch_begin/batch_end nest like a stack (batch_end restores the batch state
batch_begin started from); but a batch_end with no open batch is a silent
no-op, and the loud failure lives in lr_end, which panics whenever a nested
batch is still open after it closes the current one. -/
theorem C3_amended (domain label name : List Char) (rb : ReplyBuffer) :
    (rb.batch = none → rb.batch_end domain label = rb) ∧
    (∀ n, rb.batch = some (n + 1) → rb.lr_end domain label = none) ∧
    (((rb.batch_begin domain label name).batch_end domain label).batch = rb.batch) ∧
    (rb.new_batch.1 = match rb.batch with | none => 0 | some prev => prev + 1) := by
  refine ⟨?_, ?_, ?_, rfl⟩
  · intro h
    unfold ReplyBuffer.batch_end
    rw [h]
  · intro n h
    have hbe : (rb.batch_end domain label).batch = some n := by
      rw [replyBuffer_batch_end_batch domain label rb (n + 1) h]
      simp
    unfold ReplyBuffer.lr_end
    rw [h]
    simp only [Option.isNone_some, Bool.and_false, Option.isSome_some, if_true, hbe]
    simp
  · have hbb : (rb.batch_begin domain label name).batch =
        some (match rb.batch with | none => 0 | some prev => prev + 1) := by
      unfold ReplyBuffer.batch_begin ReplyBuffer.new_batch
      simp only [replyBuffer_message_batch]
    rw [replyBuffer_batch_end_batch domain label _ _ hbb]
    cases rb.batch with
    | none => simp
    | some p => simp

/-- Witness for C3's amended theorem at concrete inputs: the silent no-op
and the lr_end panic. -/
theorem C3_witness :
    ((⟨[], none, false⟩ : ReplyBuffer).batch_end [] [] = (⟨[], none, false⟩ : ReplyBuffer)) ∧
    ReplyBuffer.lr_end [] [] ⟨[], some 1, false⟩ = none :=
  ⟨(C3_amended [] [] [] ⟨[], none, false⟩).1 rfl,
   (C3_amended [] [] [] ⟨[], some 1, false⟩).2.1 0 rfl⟩

/-- C5 is false as stated: inserting the comma-containing mask a-comma-b
twice returns true both times (the comma-joined storage splits it into two
members), refuting that a second insert of the same mask returns false. -/
theorem C5_counterexample :
    (MaskSet.new.insert "a,b".data).1 = true ∧
    ((MaskSet.new.insert "a,b".data).2.insert "a,b".data).1 = true := by
  constructor
  · decide
  · decide

/-- C5 (amended): for masks without commas, insert returns false exactly
when the mask is already a member and otherwise makes it a member; a second
insert of the same mask returns false; remove returns false exactly when
the mask is absent; and removing a nonempty mask from a set whose member
list is duplicate-free leaves the mask no longer a member.  Masks with
commas split into several members, and removing the empty mask can return
true while leaving it a member. -/
theorem C5_amended (ms : MaskSet) (mask : List Char) (hc : ',' ∉ mask) :
    ((ms.insert mask).1 = false ↔ mask ∈ ms.masks) ∧
    ((ms.insert mask).1 = true → mask ∈ (ms.insert mask).2.masks) ∧
    (((ms.insert mask).2.insert mask).1 = false) ∧
    ((ms.remove mask).1 = false ↔ mask ∉ ms.masks) ∧
    (mask ≠ [] → ms.masks.Nodup → (ms.remove mask).1 = true →
      mask ∉ (ms.remove mask).2.masks) := by
  have hmem_ins : (ms.insert mask).1 = true → mask ∈ (ms.insert mask).2.masks := by
    intro ht
    have hnm : mask ∉ splitComma ms.raw := by
      intro hm
      rw [insert_of_mem ms mask hm] at ht
      simp at ht
    show mask ∈ splitComma (ms.insert mask).2.raw
    rw [splitComma_insert ms mask hc hnm]
    simp
  refine ⟨?_, hmem_ins, ?_, ?_, ?_⟩
  · by_cases hm : mask ∈ splitComma ms.raw
    · rw [insert_of_mem ms mask hm]
      simpa using hm
    · rw [insert_of_not_mem ms mask hm]
      simpa using hm
  · by_cases hm : mask ∈ splitComma ms.raw
    · rw [insert_of_mem ms mask hm]
      rw [insert_of_mem ms mask hm]
    · have ht : (ms.insert mask).1 = true := by
        rw [insert_of_not_mem ms mask hm]
      exact (insert_of_mem _ mask (hmem_ins ht)) ▸ rfl
  · cases hf : (splitComma ms.raw).findIdx? (· == mask) with
    | none =>
      rw [remove_of_not_found ms mask hf]
      have h2 := List.findIdx?_eq_none_iff.mp hf
      constructor
      · intro _ hm
        have h3 := h2 mask hm
        simp at h3
      · intro _
        rfl
    | some j =>
      obtain ⟨hlt, hpj, -⟩ := List.findIdx?_eq_some_iff_getElem.mp hf
      have hmk : (splitComma ms.raw)[j] = mask := by simpa using hpj
      have hm : mask ∈ splitComma ms.raw := hmk ▸ List.getElem_mem hlt
      rw [remove_of_found ms mask j hf]
      constructor
      · intro h3
        simp at h3
      · intro h3
        exact absurd hm h3
  · intro hne hnd _
    cases hf : (splitComma ms.raw).findIdx? (· == mask) with
    | none =>
      have h2 := List.findIdx?_eq_none_iff.mp hf
      intro hm
      have hm2 : mask ∈ splitComma (ms.remove mask).2.raw := hm
      rw [remove_of_not_found ms mask hf] at hm2
      have h3 := h2 mask hm2
      simp at h3
    | some j =>
      obtain ⟨hlt, hpj, -⟩ := List.findIdx?_eq_some_iff_getElem.mp hf
      have hmk : (splitComma ms.raw)[j] = mask := by simpa using hpj
      obtain ⟨-, hspec⟩ := remove_spec ms mask j hf
      show mask ∉ splitComma (ms.remove mask).2.raw
      rw [hspec]
      have hdecomp : splitComma ms.raw =
          (splitComma ms.raw).take j ++ (splitComma ms.raw)[j] :: (splitComma ms.raw).drop (j + 1) := by
        conv_lhs => rw [← List.take_append_drop j (splitComma ms.raw)]
        rw [List.getElem_cons_drop]
      have hnd2 := hnd
      rw [show ms.masks = splitComma ms.raw from rfl, hdecomp] at hnd2
      rw [List.nodup_append] at hnd2
      obtain ⟨hnd_take, hnd_cons, hdisj⟩ := hnd2
      have hnotin_take : mask ∉ (splitComma ms.raw).take j := by
        intro hm
        exact hdisj hm (hmk ▸ List.mem_cons_self _ _)
      have hnotin_drop : mask ∉ (splitComma ms.raw).drop (j + 1) := by
        intro hm
        rw [List.nodup_cons] at hnd_cons
        exact hnd_cons.1 (hmk ▸ hm)
      by_cases hend : j + 1 = (splitComma ms.raw).length
      · rw [if_pos hend]
        intro hm
        rcases List.mem_append.mp hm with h4 | h4
        · exact hnotin_take h4
        · rw [List.mem_singleton] at h4
          exact hne h4
      · rw [if_neg hend]
        intro hm
        rcases List.mem_append.mp hm with h4 | h4
        · exact hnotin_take h4
        · exact hnotin_drop h4

/-- Witness for C5's amended theorem at concrete inputs. -/
theorem C5_witness :
    ("b".data ∈ ((MaskSet.mk "a".data).insert "b".data).2.masks) ∧
    (((MaskSet.mk "a".data).insert "b".data).2.insert "b".data).1 = false ∧
    ("b".data ∉ ((MaskSet.mk "a,b".data).remove "b".data).2.masks) :=
  ⟨(C5_amended ⟨"a".data⟩ "b".data (by decide)).2.1 (by decide),
   (C5_amended ⟨"a".data⟩ "b".data (by decide)).2.2.1,
   (C5_amended ⟨"a,b".data⟩ "b".data (by decide)).2.2.2.2 (by decide) (by decide) (by decide)⟩

/-- C6: can_change permits a query exactly when every change in it is
permitted — parse errors and the three query forms always; Moderated,
TopicRestricted, UserLimit, the three mask edits and ChangeVoice exactly
when the member is at least halfop; InviteOnly, NoPrivMsgFromOutside,
Secret, Key, ChangeOperator and ChangeHalfop exactly when at least op.  In
particular a voice-only member can change no mode flag. -/
theorem C6_can_change (m : MemberModes) (q : List (Except Unit ChannelChange)) :
    (m.can_change q = true ↔ ∀ x ∈ q,
      match x with
      | .error _ => True
      | .ok .GetBans => True
      | .ok .GetExceptions => True
      | .ok .GetInvitations => True
      | .ok (.Moderated _) => m.is_at_least_halfop = true
      | .ok (.TopicRestricted _) => m.is_at_least_halfop = true
      | .ok (.UserLimit _) => m.is_at_least_halfop = true
      | .ok (.ChangeBan _ _) => m.is_at_least_halfop = true
      | .ok (.ChangeException _ _) => m.is_at_least_halfop = true
      | .ok (.ChangeInvitation _ _) => m.is_at_least_halfop = true
      | .ok (.ChangeVoice _ _) => m.is_at_least_halfop = true
      | .ok (.InviteOnly _) => m.is_at_least_op = true
      | .ok (.NoPrivMsgFromOutside _) => m.is_at_least_op = true
      | .ok (.Secret _) => m.is_at_least_op = true
      | .ok (.Key _ _) => m.is_at_least_op = true
      | .ok (.ChangeOperator _ _) => m.is_at_least_op = true
      | .ok (.ChangeHalfop _ _) => m.is_at_least_op = true) ∧
    (∀ ch : ChannelChange, m.founder = false → m.protected_ = false →
      m.operator = false → m.halfop = false → isQueryForm ch = false →
      m.can_change [.ok ch] = false) := by
  constructor
  · rw [MemberModes.can_change, List.all_eq_true]
    constructor
    · intro h x hx
      have h2 := h x hx
      cases x with
      | error e => trivial
      | ok ch => cases ch <;> simpa using h2
    · intro h x hx
      have h2 := h x hx
      cases x with
      | error e => rfl
      | ok ch => cases ch <;> simpa using h2
  · intro ch h1 h2 h3 h4 h5
    cases ch <;>
      simp [MemberModes.can_change, MemberModes.is_at_least_halfop,
        MemberModes.is_at_least_op, h1, h3, h4] <;>
      simp [isQueryForm] at h5

/-- Witness for C6 at a concrete input: a voice-only member may not set
moderated. -/
theorem C6_witness :
    MemberModes.can_change ⟨false, false, false, false, true⟩
      [Except.ok (ChannelChange.Moderated true)] = false :=
  (C6_can_change ⟨false, false, false, false, true⟩ []).2 (.Moderated true)
    rfl rfl rfl rfl rfl

/-- C8 (counterexample): the claim says match_mask implements the file-glob
grammar, but the star-backtracking loop of the source walks BYTE offsets
and slices the input there without a boundary check: on mask star-x and
input e-acute-x the grammar verdict is true, while match_mask slices the
input at byte 1 — inside the two-byte e-acute — and panics. -/
theorem C8_counterexample :
    matchMask ['*', 'x'] ['é', 'x'] = none ∧ globSpec ['*', 'x'] ['é', 'x'] = true := by
  constructor
  · rw [← matchMaskE_eq 3 _ _ (by decide)]
    decide
  · have hx : globSpec ['x'] ['x'] = true := by
      rw [globSpec_cons 'x' [] ['x'] (by decide)]
      simp [globSpec_nil]
    rw [globSpec_star_tails]
    rw [show (['é', 'x'] : List Char).tails = [['é', 'x'], ['x'], []] from rfl]
    simp [hx]

/-- C8 (amended): match_mask implements the file-glob grammar on every
input on which it returns: any returned answer equals the grammar verdict
(globSpec), and it does return — with the grammar verdict — whenever every
character of the input string occupies a single UTF-8 byte; in particular
it accepts (a*b?c*x, abxbbxdbxebxczzx) and rejects
(a*b?c*x, abxbbxdbxebxczzy).  On other inputs the byte-offset backtracking
can panic mid-character, per the counterexample above. -/
theorem C8_amended :
    (∀ mask s : List Char, ∀ b : Bool, matchMask mask s = some b → b = globSpec mask s) ∧
    (∀ mask s : List Char, (∀ c ∈ s, c.utf8Size = 1) →
      matchMask mask s = some (globSpec mask s)) ∧
    matchMask "a*b?c*x".data "abxbbxdbxebxczzx".data = some true ∧
    matchMask "a*b?c*x".data "abxbbxdbxebxczzy".data = some false := by
  refine ⟨matchMask_sound, matchMask_ascii, ?_, ?_⟩
  · rw [← matchMaskE_eq 8 _ _ (by decide)]
    decide
  · rw [← matchMaskE_eq 8 _ _ (by decide)]
    decide

/-- Witness for C8's conditional conjuncts at a concrete input. -/
theorem C8_witness : matchMask ['*'] ['a', 'b'] = some (globSpec ['*'] ['a', 'b']) :=
  C8_amended.2.1 ['*'] ['a', 'b'] (by decide)

/-- C9: building a message on an empty buffer with the prefix
nick!user@127.0.0.1 and the QUIT command, then param of the empty string
and param of two-space chiao-space, with the end-of-scope CRLF, yields
exactly the expected wire line; param trims its argument and appends
nothing when the argument trims to nothing. -/
theorem C9_quit_rendering :
    msgEnd (msgParam (msgParam (mkPrefixed [] "nick!user@127.0.0.1".data "QUIT".data)
        "".data) "  chiao ".data) = ":nick!user@127.0.0.1 QUIT chiao".data ++ ['\r', '\n'] ∧
    (∀ buf p : List Char, rustTrim p = [] → msgParam buf p = buf) ∧
    (∀ buf p : List Char, msgParam buf p = buf ∨ msgParam buf p = buf ++ ' ' :: rustTrim p) := by
  refine ⟨by decide, ?_, ?_⟩
  · intro buf p h
    simp [msgParam, h]
  · intro buf p
    by_cases h : rustTrim p = []
    · left
      simp [msgParam, h]
    · right
      simp [msgParam, h]

/-- Witness for C9's trimming conjunct at a concrete input. -/
theorem C9_witness : msgParam ['x'] "   ".data = ['x'] :=
  C9_quit_rendering.2.1 ['x'] "   ".data (by decide)

/-- C10: a freshly created MaskSet behaves as if it contains one empty
mask: is_match of the empty string returns true (the matcher does not
panic there), insert of the empty string returns false, and masks()
yields exactly one element, the empty string. -/
theorem C10_fresh_maskset :
    MaskSet.new.is_match [] = some true ∧
    (MaskSet.new.insert []).1 = false ∧
    MaskSet.new.masks = [[]] := by
  refine ⟨?_, by decide, rfl⟩
  show anyM (fun mask => matchMask mask []) (splitComma MaskSet.new.raw) = some true
  rw [show splitComma MaskSet.new.raw = [[]] from rfl]
  simp only [anyM]
  rw [matchMask_nil]
  rfl
